import Mathlib

/-
Verification of the freezing/packaging pipeline in
PyInstaller-3.6/PyInstaller/building/api.py.

The embedding below translates the classes PYZ, PKG, EXE, COLLECT and MERGE
of api.py into pure Lean functions.  Filesystem queries, the strip/upx cache
and the suffix-normalisation helper (add_suffix_to_extensions, defined in
building/utils.py, outside this tree) are abstracted into an explicit
environment record; the definitions follow the Python control flow line by
line.  Path string functions (normpath, dirname, join) are modelled for the
POSIX convention (sep = '/', pardir = ".."); the platform flags is_win,
is_cygwin, is_darwin and is_linux of api.py are taken to be false (a generic
POSIX platform), so the code regions they guard are statically dead and
omitted.  Python's stable list.sort is modelled by List.insertionSort with
the corresponding non-strict key relation, which computes the unique stable
sorted permutation.
-/

/-- Entry type codes of the manifest model (the `typ` field of TOC entries). -/
inductive Typ where
  | PYMODULE
  | PYSOURCE
  | EXTENSION
  | PYZ
  | PKG
  | DATA
  | BINARY
  | ZIPFILE
  | EXECUTABLE
  | DEPENDENCY
  | OPTION
deriving DecidableEq, Repr

/-- A manifest (TOC) entry: internal name, source path on disk, type. -/
structure Entry where
  inm : String
  fnm : String
  typ : Typ
deriving DecidableEq, Repr

/-- The Python string constant naming each type (used by tuple comparison in
PYZ's final `toc.sort()`). -/
def typName : Typ → String
  | .PYMODULE => "PYMODULE"
  | .PYSOURCE => "PYSOURCE"
  | .EXTENSION => "EXTENSION"
  | .PYZ => "PYZ"
  | .PKG => "PKG"
  | .DATA => "DATA"
  | .BINARY => "BINARY"
  | .ZIPFILE => "ZIPFILE"
  | .EXECUTABLE => "EXECUTABLE"
  | .DEPENDENCY => "DEPENDENCY"
  | .OPTION => "OPTION"

/-- PKG.xformdict: the 1-character type code stored in the CArchive index.
OPTION is absent from the Python dict (its branch hard-codes 'o'). -/
def xformdict : Typ → Option Char
  | .PYMODULE => some 'm'
  | .PYSOURCE => some 's'
  | .EXTENSION => some 'b'
  | .PYZ => some 'z'
  | .PKG => some 'a'
  | .DATA => some 'x'
  | .BINARY => some 'b'
  | .ZIPFILE => some 'Z'
  | .EXECUTABLE => some 'b'
  | .DEPENDENCY => some 'd'
  | .OPTION => none

/-- typ in ('BINARY', 'EXTENSION', 'DEPENDENCY') in PKG.assemble. -/
def binaryLike : Typ → Bool
  | .BINARY => true
  | .EXTENSION => true
  | .DEPENDENCY => true
  | _ => false

/-- typ in ('PYSOURCE', 'PYMODULE') in PKG.assemble. -/
def isSrcTyp : Typ → Bool
  | .PYSOURCE => true
  | .PYMODULE => true
  | _ => false

/-- Environment of PKG.assemble: the filesystem and helper functions it
consults.  checkCache folds in the fixed strip/upx flags of the build
(checkCache(fnm, strip, upx, upx_exclude, dist_nm) in the source, with the
flag arguments constant over one PKG); addSuffix models
add_suffix_to_extensions applied entry-wise (building/utils.py, outside this
tree: it can rewrite the internal name of EXTENSION/DEPENDENCY entries and
leaves other entries alone, which is why theorems below hypothesise it to be
the identity on the entries they speak about). -/
structure PkgEnv where
  isFile : String → Bool
  isPathToEgg : String → Bool
  addSuffix : Entry → Entry
  checkCache : String → String → String

/-- Configuration of one PKG: the exclude_binaries flag and the compression
dictionary cdict (a partial map; `cdict.get(typ, 0)` is modelled by getD 0,
and the direct indexing `cdict[typ]` on PYSOURCE/PYMODULE entries by a fatal
KeyError, i.e. `none`, when the key is absent). -/
structure PkgConf where
  excludeBinaries : Bool
  cdict : Typ → Option Nat

/-- The default cdict built in PKG.__init__ (COMPRESSED = 1,
UNCOMPRESSED = 0). -/
def cdictDefault : Typ → Option Nat
  | .EXTENSION => some 1
  | .DATA => some 1
  | .BINARY => some 1
  | .EXECUTABLE => some 1
  | .PYSOURCE => some 1
  | .PYMODULE => some 1
  | .PYZ => some 0
  | _ => none

/-- The default PKG configuration (exclude_binaries = 0). -/
def pkgConfDefault : PkgConf := ⟨false, cdictDefault⟩

/-- One row of the final CArchive table: internal name, backing path of the
payload, compression flag, 1-character type code. -/
structure PkgEntry where
  inm : String
  fnm : String
  compress : Nat
  code : Char
deriving DecidableEq, Repr

/-- The two warn-and-continue anomalies of PKG.assemble's BINARY
deduplication (the payload records the entry that triggered the warning; the
source additionally logs the earlier entry via seenFnmsTyp, which is pure
log formatting). -/
inductive PkgWarn where
  | dupName (inm fnm : String)
  | dupPath (inm fnm : String)
deriving DecidableEq, Repr

/-- Loop state of PKG.assemble: the three seen-dictionaries (modelled as
association lists, most recent binding first), the two output tables and the
emitted warnings. -/
structure PkgState where
  seenInms : List (String × String)
  seenFnms : List (String × String)
  seenFnmsTyp : List (String × Typ)
  mytoc : List PkgEntry
  srctoc : List PkgEntry
  warns : List PkgWarn
deriving Repr

/-- The initial (empty) PKG.assemble state. -/
def pkgInit : PkgState := ⟨[], [], [], [], [], []⟩

/-- The shared tail of the BINARY/EXTENSION/DEPENDENCY branch: record the
entry in the three seen-dictionaries, run the binary through the
strip/upx cache and append it to mytoc. -/
def pkgKeepBinary (env : PkgEnv) (cfg : PkgConf) (st : PkgState) (e : Entry) :
    PkgState :=
  { st with
    seenInms := (e.inm, e.fnm) :: st.seenInms
    seenFnms := (e.fnm, e.inm) :: st.seenFnms
    seenFnmsTyp := (e.fnm, e.typ) :: st.seenFnmsTyp
    mytoc := st.mytoc ++
      [⟨e.inm, env.checkCache e.fnm e.inm, (cfg.cdict e.typ).getD 0,
        (xformdict e.typ).getD 'b'⟩] }

/-- One iteration of the `for inm, fnm, typ in toc` loop of PKG.assemble.
`none` models the uncaught KeyError of `self.cdict[typ]` on a
PYSOURCE/PYMODULE entry whose type is missing from cdict. -/
def pkgStep (env : PkgEnv) (cfg : PkgConf) (st : PkgState) (e : Entry) :
    Option PkgState :=
  if e.fnm != "" && !env.isFile e.fnm && env.isPathToEgg e.fnm then
    -- file is contained within a python egg: added with the egg
    some st
  else if binaryLike e.typ then
    if cfg.excludeBinaries then some st
    else if e.typ == Typ.BINARY && (st.seenInms.lookup e.inm).isSome then
      -- two binaries with the same internal name: warn and skip
      some { st with warns := st.warns ++ [.dupName e.inm e.fnm] }
    else if e.typ == Typ.BINARY && (st.seenFnms.lookup e.fnm).isSome then
      -- one binary under two internal names: warn only, keep the entry
      some (pkgKeepBinary env cfg
        { st with warns := st.warns ++ [.dupPath e.inm e.fnm] } e)
    else
      some (pkgKeepBinary env cfg st e)
  else if e.typ == Typ.OPTION then
    some { st with mytoc := st.mytoc ++ [⟨e.inm, "", 0, 'o'⟩] }
  else if isSrcTyp e.typ then
    match cfg.cdict e.typ with
    | none => none
    | some c =>
      some { st with
        srctoc := st.srctoc ++ [⟨e.inm, e.fnm, c, (xformdict e.typ).getD 'b'⟩] }
  else
    some { st with
      mytoc := st.mytoc ++
        [⟨e.inm, e.fnm, (cfg.cdict e.typ).getD 0, (xformdict e.typ).getD 'b'⟩] }

/-- The whole entry loop of PKG.assemble. -/
def pkgLoop (env : PkgEnv) (cfg : PkgConf) :
    PkgState → List Entry → Option PkgState
  | st, [] => some st
  | st, e :: rest =>
    match pkgStep env cfg st e with
    | none => none
    | some st' => pkgLoop env cfg st' rest

/-- Strict code-point comparison of characters (Python string comparison is
lexicographic by code point). -/
def charLtB (a b : Char) : Bool := decide (a < b)

/-- Lexicographic strict comparison of character lists. -/
def strLtL : List Char → List Char → Bool
  | [], [] => false
  | [], _ :: _ => true
  | _ :: _, [] => false
  | a :: as, b :: bs => if a = b then strLtL as bs else charLtB a b

/-- Python's `s1 < s2` on strings. -/
def strLtB (a b : String) : Bool := strLtL a.data b.data

/-- Python's `s1 <= s2` on strings. -/
def strLeB (a b : String) : Bool := a == b || strLtB a b

/-- The sort key of `mytoc.sort(key=itemgetter(3, 0))`: the 1-character type
code (a 1-character string in Python, compared by code point) then the
internal name. -/
def pkgKeyLe (a b : PkgEntry) : Bool :=
  if a.code = b.code then strLeB a.inm b.inm else charLtB a.code b.code

/-- The relation of the stable sort of mytoc, as a proposition. -/
def PkgLe (a b : PkgEntry) : Prop := pkgKeyLe a b = true

instance : DecidableRel PkgLe := fun a b =>
  inferInstanceAs (Decidable (pkgKeyLe a b = true))

/-- Result of PKG.assemble relevant to the claims: the final CArchive table
(payloads are then written in exactly this order, followed by the index) and
the warnings.  The python-library base name passed to CArchiveWriter is an
external input and is omitted. -/
structure PKGRes where
  table : List PkgEntry
  warns : List PkgWarn
deriving DecidableEq, Repr

/-- PKG.assemble: normalise the manifest with add_suffix_to_extensions, run
the entry loop, then emit srctoc (manifest order) followed by mytoc stably
sorted by (type code, internal name). -/
def pkgAssemble (env : PkgEnv) (cfg : PkgConf) (toc : List Entry) :
    Option PKGRes :=
  match pkgLoop env cfg pkgInit (toc.map env.addSuffix) with
  | none => none
  | some st => some ⟨st.srctoc ++ List.insertionSort PkgLe st.mytoc, st.warns⟩


/-- Code objects handled by the Module Archive are opaque payloads for the
properties considered here; they are modelled by naturals. -/
abbrev Code := Nat

/-- Environment of PYZ.assemble: get_code_object(name, path)
(building/utils.py, outside this tree) recompiles a module from source text;
`none` models the SyntaxError that the source catches (any other exception
propagates outside the modelled region and cannot occur here). -/
structure PyzEnv where
  getCode : String → String → Option Code

/-- Modelled from the spec: the Module Archive excludes the externally
supplied bootstrap module entries from its own manifest ("A fixed,
externally-supplied set of bootstrap module entries is excluded from this
archive's own manifest"); the TOC subtraction `self.toc - self.dependencies`
(class TOC, building/datastruct.py, outside this tree) removes the entries
whose internal name occurs among the subtracted entries. -/
def tocSubtract (toc deps : List Entry) : List Entry :=
  toc.filter fun e => !(deps.map Entry.inm).contains e.inm

/-- Tuple comparison `(inm, fnm, typ) <= (inm', fnm', typ')` used by Python's
`toc.sort()` in PYZ.assemble (the third component is the type's string
constant). -/
def pyzLeB (a b : Entry) : Bool :=
  if a.inm = b.inm then
    if a.fnm = b.fnm then strLeB (typName a.typ) (typName b.typ)
    else strLtB a.fnm b.fnm
  else strLtB a.inm b.inm

/-- The relation of PYZ's final sort, as a proposition. -/
def PyzLe (a b : Entry) : Prop := pyzLeB a b = true

instance : DecidableRel PyzLe := fun a b =>
  inferInstanceAs (Decidable (pyzLeB a b = true))

/-- The `for entry in toc[:]` loop of PYZ.assemble: iterate over a frozen
copy of the entry list; a PYMODULE entry absent from the threaded code
dictionary is recompiled, a success is recorded in the dictionary, a
SyntaxError removes the first equal occurrence from the live list
(`toc.remove(entry)`). -/
def pyzLoop (env : PyzEnv) :
    List Entry → List Entry → List (String × Code) →
    List Entry × List (String × Code)
  | [], cur, cd => (cur, cd)
  | e :: rest, cur, cd =>
    if !(cd.lookup e.inm).isSome && (e.typ == Typ.PYMODULE) then
      match env.getCode e.inm e.fnm with
      | some c => pyzLoop env rest cur ((e.inm, c) :: cd)
      | none => pyzLoop env rest (cur.erase e) cd
    else pyzLoop env rest cur cd

/-- PYZ.assemble: subtract the bootstrap dependencies, run the
recompilation loop, sort the surviving entry list alphabetically.  The
result is the final entry list handed to ZlibArchiveWriter (the code
dictionary, stripped of build paths, accompanies it and is irrelevant to
the claims below).  The function is total: within the modelled region the
only exception, SyntaxError, is caught by the source. -/
def pyzAssemble (env : PyzEnv) (toc deps : List Entry)
    (cache : List (String × Code)) : List Entry :=
  let t0 := tocSubtract toc deps
  let r := pyzLoop env t0 t0 cache
  List.insertionSort PyzLe r.1

/-- Python `s.split('/')` on the character list, keeping empty parts. -/
def splitSlashAux : List Char → List Char → List (List Char)
  | acc, [] => [acc.reverse]
  | acc, x :: xs =>
    if x = '/' then acc.reverse :: splitSlashAux [] xs
    else splitSlashAux (x :: acc) xs

/-- Python `s.split('/')`. -/
def splitSlash (s : String) : List String :=
  (splitSlashAux [] s.data).map String.mk

/-- Interleave '/' between the parts (Python `'/'.join`). -/
def joinSlashL : List (List Char) → List Char
  | [] => []
  | [x] => x
  | x :: y :: rest => x ++ '/' :: joinSlashL (y :: rest)

/-- Python `'/'.join(parts)`. -/
def joinSlash (l : List String) : String :=
  String.mk (joinSlashL (l.map String.data))

/-- Python `s.startswith(pre)`. -/
def strStarts (s pre : String) : Bool := pre.data.isPrefixOf s.data

/-- POSIX os.path.normpath, component-collapsing pass (CPython posixpath:
skip empty and '.' components; '..' pops the previous component unless there
is none and the path is relative, or the previous one is itself '..'). -/
def normComps (initialSlashes : Nat) : List String → List String → List String
  | acc, [] => acc
  | acc, c :: rest =>
    if c = "" ∨ c = "." then normComps initialSlashes acc rest
    else if c ≠ ".." ∨ (initialSlashes = 0 ∧ acc = []) ∨
        acc.getLast? = some ".." then
      normComps initialSlashes (acc ++ [c]) rest
    else if acc ≠ [] then normComps initialSlashes acc.dropLast rest
    else normComps initialSlashes acc rest

/-- POSIX os.path.normpath. -/
def normpath (p : String) : String :=
  if p = "" then "."
  else
    let initialSlashes : Nat :=
      if strStarts p "//" && !strStarts p "///" then 2
      else if strStarts p "/" then 1 else 0
    let comps := normComps initialSlashes [] (splitSlash p)
    let joined := joinSlash comps
    let out := String.mk (List.replicate initialSlashes '/') ++ joined
    if out = "" then "." else out

/-- Index of the last '/' in a character list, if any. -/
def lastSlashIdx (cs : List Char) : Option Nat :=
  ((cs.enum.filter fun ic => ic.2 = '/').map fun ic => ic.1).getLast?

/-- POSIX os.path.dirname: everything up to the last '/', with trailing
slashes stripped unless the head consists only of slashes. -/
def dirname (p : String) : String :=
  let cs := p.data
  match lastSlashIdx cs with
  | none => ""
  | some i =>
    let head := cs.take (i + 1)
    if head.all fun c => c = '/' then String.mk head
    else String.mk ((head.reverse.dropWhile fun c => c = '/').reverse)

/-- os.path.join(base, rel) for a relative second component (the only form
reached in COLLECT.assemble: absolute internal names abort earlier). -/
def pathJoin (a b : String) : String := a ++ "/" ++ b

/-- All ancestor directories created by os.makedirs(p) (p itself and every
dirname above it), with explicit fuel for termination. -/
def ancestorsAux : Nat → String → List String
  | 0, p => [p]
  | n + 1, p =>
    let d := dirname p
    if d = p ∨ d = "" then [p] else p :: ancestorsAux n d

/-- Directories guaranteed to exist after os.makedirs(p). -/
def mkdirsDirs (p : String) : List String := ancestorsAux p.length p

/-- Environment of COLLECT.assemble: filesystem queries on source paths,
plus the same addSuffix / checkCache abstractions as for PKG; copystatOk
tells whether shutil.copystat succeeds for a given source (a failure is a
logged warning, not an abort). -/
structure CollectEnv where
  pathEx : String → Bool
  isFile : String → Bool
  isDirSrc : String → Bool
  isPathToEgg : String → Bool
  addSuffix : Entry → Entry
  checkCache : String → String → String
  copystatOk : String → Bool

/-- Observable filesystem actions of COLLECT.assemble, in program order. -/
inductive CAct where
  | cleanDir (d : String)
  | mkdirs (d : String)
  | copyTreeAct (src dst : String)
  | copyFileAct (src dst : String)
  | copyStatAct (src dst : String)
  | statWarn (src : String)
  | chmodExec (dst : String)
deriving DecidableEq, Repr

/-- Actions that write a payload file or tree into the output directory. -/
def isCopyAct : CAct → Bool
  | .copyTreeAct _ _ => true
  | .copyFileAct _ _ => true
  | _ => false

/-- State of the output directory during COLLECT.assemble: the directories
and regular files known to exist under it.  _make_clean_directory starts
from an empty tree, so the contents are fully determined by the actions
performed (the inner files of a copied tree are not tracked; no claim
depends on them).  os.makedirs is modelled as creating the directory and
its missing ancestors. -/
structure CState where
  dirs : List String
  files : List String
deriving DecidableEq, Repr

/-- The security abort message of COLLECT.assemble. -/
def secAlertMsg (inm : String) : String :=
  "Security-Alert: try to store file outside of dist-directory. Aborting. "
    ++ inm

/-- The destination-collision abort message of COLLECT.assemble. -/
def collisionMsg (todir : String) : String :=
  "Pyinstaller needs to make a directory, but there already is a file at "
    ++ "that path. The file at issue is " ++ todir

/-- Result of one iteration of the COLLECT.assemble entry loop. -/
inductive StepRes where
  | ok (acts : List CAct) (st : CState)
  | fatal (msg : String)
deriving DecidableEq, Repr

/-- Tail of one COLLECT.assemble iteration after the directory handling:
route EXTENSION/BINARY entries through the strip/upx cache, copy the file
or tree (skipping DEPENDENCY entries), attempt copystat, chmod binaries. -/
def collectCopyPart (env : CollectEnv) (st : CState) (acts0 : List CAct)
    (e : Entry) (tofnm : String) : StepRes :=
  let fnm := if e.typ == Typ.EXTENSION || e.typ == Typ.BINARY then
      env.checkCache e.fnm e.inm else e.fnm
  let copied : List CAct × CState :=
    if e.typ == Typ.DEPENDENCY then ([], st)
    else
      let main : CAct × CState :=
        if env.isDirSrc fnm then
          (CAct.copyTreeAct fnm tofnm, { st with dirs := tofnm :: st.dirs })
        else
          (CAct.copyFileAct fnm tofnm, { st with files := tofnm :: st.files })
      let statAct : CAct :=
        if env.copystatOk fnm then CAct.copyStatAct fnm tofnm
        else CAct.statWarn fnm
      ([main.1, statAct], main.2)
  let chmodActs : List CAct :=
    if e.typ == Typ.EXTENSION || e.typ == Typ.BINARY then
      [CAct.chmodExec tofnm] else []
  .ok (acts0 ++ copied.1 ++ chmodActs) copied.2

/-- One iteration of the `for inm, fnm, typ in toc` loop of
COLLECT.assemble: skip entries whose backing file does not exist (or is an
egg member), abort on a path-traversal internal name, create or validate
the target directory, then copy. -/
def collectStep (env : CollectEnv) (name : String) (st : CState)
    (e : Entry) : StepRes :=
  if !env.pathEx e.fnm || (!env.isFile e.fnm && env.isPathToEgg e.fnm) then
    .ok [] st
  else if (splitSlash (normpath e.inm)).contains ".." || strStarts e.inm "/"
      then
    .fatal (secAlertMsg e.inm)
  else
    let tofnm := pathJoin name e.inm
    let todir := dirname tofnm
    if !(st.dirs.contains todir || st.files.contains todir) then
      collectCopyPart env { st with dirs := mkdirsDirs todir ++ st.dirs }
        [CAct.mkdirs todir] e tofnm
    else if !st.dirs.contains todir then
      .fatal (collisionMsg todir)
    else
      collectCopyPart env st [] e tofnm

/-- The whole entry loop of COLLECT.assemble: actions in program order, the
final directory state, and the abort message if a fatal error stopped the
loop. -/
def collectLoop (env : CollectEnv) (name : String) :
    CState → List Entry → List CAct × CState × Option String
  | st, [] => ([], st, none)
  | st, e :: rest =>
    match collectStep env name st e with
    | .fatal m => ([], st, some m)
    | .ok acts st' =>
      let r := collectLoop env name st' rest
      (acts ++ r.1, r.2.1, r.2.2)

/-- COLLECT.assemble: wipe and recreate the output directory, normalise the
manifest with add_suffix_to_extensions, run the entry loop. -/
def collectAssemble (env : CollectEnv) (name : String) (toc : List Entry) :
    List CAct × CState × Option String :=
  (CAct.cleanDir name ::
    (collectLoop env name ⟨[name], []⟩ (toc.map env.addSuffix)).1,
   (collectLoop env name ⟨[name], []⟩ (toc.map env.addSuffix)).2.1,
   (collectLoop env name ⟨[name], []⟩ (toc.map env.addSuffix)).2.2)

/-- An analysis result as consumed by MERGE: its binary and data manifests
and its mutable dependency set.  The script list only feeds the
relative-identifier computation of MERGE.__init__, which is passed in here
as the per-analysis display path (the `path` argument of
_set_dependencies). -/
structure Analysis where
  binaries : List Entry
  datas : List Entry
  dependencies : List Entry
deriving DecidableEq, Repr

/-- MERGE._get_relative_path(startpath, topath): one '..' for every
directory component of startpath except the last, then topath. -/
def getRelativePath (startpath topath : String) : String :=
  let start := (splitSlash startpath).dropLast
  if start ≠ [] then joinSlash ((start.map fun _ => "..") ++ [topath])
  else topath

/-- The inner `for i, tpl in enumerate(toc)` loop of
MERGE._set_dependencies on one manifest: an entry whose absolute path is
new is claimed for the current executable; an already-claimed path is
replaced by a DEPENDENCY entry (relative path to the owner, plus the
original internal name) and the manifest row is dropped (the source marks
it (None, None, None) and filters it afterwards).  Returns the filtered
manifest, the updated shared path dictionary, and the dependency entries
appended in iteration order. -/
def setDepToc (path : String) :
    List (String × String) → List Entry →
    List Entry × List (String × String) × List Entry
  | deps, [] => ([], deps, [])
  | deps, e :: rest =>
    match deps.lookup e.fnm with
    | none =>
      let r := setDepToc path ((e.fnm, path) :: deps) rest
      (e :: r.1, r.2.1, r.2.2)
    | some owner =>
      let d : Entry :=
        ⟨getRelativePath path owner ++ ":" ++ e.inm, e.fnm, .DEPENDENCY⟩
      let r := setDepToc path deps rest
      (r.1, r.2.1, d :: r.2.2)

/-- MERGE._set_dependencies(analysis, path): process analysis.binaries then
analysis.datas against the shared dictionary, appending the generated
DEPENDENCY entries to analysis.dependencies. -/
def setDependencies (deps0 : List (String × String)) (a : Analysis)
    (path : String) : Analysis × List (String × String) :=
  let rb := setDepToc path deps0 a.binaries
  let rd := setDepToc path rb.2.1 a.datas
  (⟨rb.1, rd.1, a.dependencies ++ rb.2.2 ++ rd.2.2⟩, rd.2.1)

/-- The `for analysis, _, _ in args` loop of MERGE._merge_dependencies,
threading the shared `self._dependencies` dictionary (initially empty in
MERGE.__init__) through every analysis in argument order.  Each analysis is
paired with its display path as computed by MERGE.__init__. -/
def mergeDependencies : List (String × String) →
    List (Analysis × String) → List Analysis
  | _, [] => []
  | deps, (a, p) :: rest =>
    let r := setDependencies deps a p
    r.1 :: mergeDependencies r.2 rest

/-- MERGE construction on already-resolved display paths: the dependency
rewriting performed on the argument analyses. -/
def mergeAnalyses (args : List (Analysis × String)) : List Analysis :=
  mergeDependencies [] args

/-- Snapshot of the filesystem facts EXE._check_guts consults: existence of
the output executable and of the sidecar archive file, the verdict of the
generic Target._check_guts (building/datastruct.py, outside this tree:
tracked-field comparison against the persisted record), the recorded mtime
`data['mtm']`, the current mtime of the output executable, and the mtime of
the feeding PKG's build-record file `self.pkg.tocfilename`. -/
structure ExeGutsEnv where
  exeExists : Bool
  pkgFileExists : Bool
  targetStale : Bool
  mtm : Int
  exeMtime : Int
  pkgTocMtime : Int

/-- EXE._check_guts: stale when the executable is missing; in sidecar mode
when the sidecar archive is missing; when the generic Build Node check
reports stale; when the recorded mtime differs from the executable's; or
when the feeding PKG's record is newer than the recorded mtime. -/
def exeCheckGuts (appendPkg : Bool) (env : ExeGutsEnv) : Bool :=
  if !env.exeExists then true
  else if !appendPkg && !env.pkgFileExists then true
  else if env.targetStale then true
  else if env.mtm != env.exeMtime then true
  else if env.mtm < env.pkgTocMtime then true
  else false

/-- Observable actions of EXE.assemble on the generic POSIX platform
(is_win, is_linux and is_darwin false: no resource injection, no objcopy
section embedding, no Mach-O fix-up). -/
inductive ExeAct where
  | removeOutput
  | makeOutputDir
  | copyBootToOutput
  | copyPkgToSidecar
  | appendBootPkg
  | chmodOutput
deriving DecidableEq, Repr

/-- Filesystem facts EXE.assemble consults at its start: whether the output
executable already exists, whether its directory exists, and whether the
selected prebuilt bootloader file exists. -/
structure ExeEnv where
  nameExists : Bool
  outDirExists : Bool
  bootExists : Bool

/-- The SystemExit message raised for a missing bootloader
(_MISSING_BOOTLOADER_ERRORMSG). -/
def missingBootloaderMsg : String :=
  "Fatal error: PyInstaller does not include a pre-compiled bootloader "
    ++ "for your platform."

/-- EXE.assemble on the generic POSIX platform: delete a pre-existing
output executable, create the output directory if missing, abort with
SystemExit if the bootloader binary does not exist; otherwise attach the
archive (sidecar copies when append_pkg is false, raw append otherwise) and
mark the result executable.  Returns the actions in program order and the
abort message, if any. -/
def exeAssemble (appendPkg : Bool) (env : ExeEnv) :
    List ExeAct × Option String :=
  let t1 : List ExeAct := if env.nameExists then [.removeOutput] else []
  let t2 : List ExeAct := if env.outDirExists then [] else [.makeOutputDir]
  if !env.bootExists then (t1 ++ t2, some missingBootloaderMsg)
  else
    let attach : List ExeAct :=
      if appendPkg then [.appendBootPkg]
      else [.copyBootToOutput, .copyPkgToSidecar]
    (t1 ++ t2 ++ attach ++ [.chmodOutput], none)

/-- Reference dedup for all-BINARY manifests: keep the first entry for every
internal name, in manifest order, regardless of source paths. -/
def binFirstSeen (seen : List String) : List Entry → List Entry
  | [] => []
  | e :: rest =>
    if seen.contains e.inm then binFirstSeen seen rest
    else e :: binFirstSeen (e.inm :: seen) rest

/-- The CArchive table row produced for a retained BINARY entry. -/
def binOut (env : PkgEnv) (cfg : PkgConf) (e : Entry) : PkgEntry :=
  ⟨e.inm, env.checkCache e.fnm e.inm, (cfg.cdict Typ.BINARY).getD 0, 'b'⟩

/-- Per-entry contribution to mytoc when no BINARY deduplication fires
(that is, when the binary-like internal names of the manifest are pairwise
distinct): the egg check, the exclude_binaries filter, and the row built
for each branch of PKG.assemble, with src entries contributing nothing. -/
def pkgPure (env : PkgEnv) (cfg : PkgConf) (e : Entry) : Option PkgEntry :=
  if e.fnm != "" && !env.isFile e.fnm && env.isPathToEgg e.fnm then none
  else if binaryLike e.typ then
    if cfg.excludeBinaries then none
    else some ⟨e.inm, env.checkCache e.fnm e.inm, (cfg.cdict e.typ).getD 0,
      (xformdict e.typ).getD 'b'⟩
  else if e.typ == Typ.OPTION then some ⟨e.inm, "", 0, 'o'⟩
  else if isSrcTyp e.typ then none
  else some ⟨e.inm, e.fnm, (cfg.cdict e.typ).getD 0, (xformdict e.typ).getD 'b'⟩

/-- Per-entry contribution to srctoc: the row a PYSOURCE/PYMODULE entry
adds (in manifest order), subject to the same egg-membership skip as any
other entry, and partial in cdict exactly where the loop would raise
KeyError. -/
def srcFun (env : PkgEnv) (cfg : PkgConf) (e : Entry) : Option PkgEntry :=
  if e.fnm != "" && !env.isFile e.fnm && env.isPathToEgg e.fnm then none
  else if isSrcTyp e.typ then
    (cfg.cdict e.typ).map fun c =>
      ⟨e.inm, e.fnm, c, (xformdict e.typ).getD 'b'⟩
  else none

/-- The srctoc rows of a manifest, in manifest order. -/
def srcPart (env : PkgEnv) (cfg : PkgConf) (toc : List Entry) :
    List PkgEntry :=
  toc.filterMap (srcFun env cfg)

/-- The sort key (type code, internal name) of a CArchive table row. -/
def pkgKey (e : PkgEntry) : Char × String := (e.code, e.inm)

/-- A concrete PKG environment for closed evaluations: every path exists as
a plain file, nothing is an egg member, suffix normalisation and the
strip/upx cache are the identity. -/
def plainPkgEnv : PkgEnv := ⟨fun _ => true, fun _ => false, id, fun f _ => f⟩


/-- A concrete COLLECT environment for closed evaluations: exactly the two
source files /src/good and /src/ab exist (as plain files); nothing is an
egg member or a directory; normalisation and the strip/upx cache are the
identity; copystat always succeeds. -/
def plainCollectEnv : CollectEnv :=
  ⟨fun p => p == "/src/good" || p == "/src/ab",
   fun p => p == "/src/good" || p == "/src/ab",
   fun _ => false, fun _ => false, id, fun f _ => f, fun _ => true⟩

/-- Post-state of one non-privileged analysis after MERGE rewriting, for a
shared absolute path f owned by the analysis with display path p0: the
manifest no longer references f, and exactly one DEPENDENCY entry for f is
appended to the dependency set, carrying the relative path from this
analysis to the owner plus the original internal name. -/
def mergeResultOk (p0 f : String) (ap : Analysis × String) (a' : Analysis) :
    Prop :=
  (∀ e ∈ a'.binaries ++ a'.datas, e.fnm ≠ f) ∧
  ∃ e, ((ap.1.binaries ++ ap.1.datas).filter fun x => x.fnm == f) = [e] ∧
    (a'.dependencies.filter fun x => x.fnm == f) =
      (ap.1.dependencies.filter fun x => x.fnm == f) ++
      [⟨getRelativePath ap.2 p0 ++ ":" ++ e.inm, f, Typ.DEPENDENCY⟩]

theorem charLtB_trans {a b c : Char} (h1 : charLtB a b = true)
    (h2 : charLtB b c = true) : charLtB a c = true := by
  simp only [charLtB, decide_eq_true_iff] at h1 h2 ⊢
  exact lt_trans h1 h2

theorem charLtB_conn {a b : Char} (h1 : charLtB a b = false)
    (h2 : charLtB b a = false) : a = b := by
  simp only [charLtB, decide_eq_false_iff_not, not_lt] at h1 h2
  exact le_antisymm h2 h1

theorem charLtB_asymm {a b : Char} (h1 : charLtB a b = true)
    (h2 : charLtB b a = true) : False := by
  simp only [charLtB, decide_eq_true_iff] at h1 h2
  exact absurd (lt_trans h1 h2) (lt_irrefl a)

theorem strLtL_trans : ∀ a b c, strLtL a b = true → strLtL b c = true →
    strLtL a c = true := by
  intro a
  induction a with
  | nil =>
    intro b c h1 h2
    cases b with
    | nil => simp [strLtL] at h1
    | cons x xs =>
      cases c with
      | nil => simp [strLtL] at h2
      | cons y ys => simp [strLtL]
  | cons x xs ih =>
    intro b c h1 h2
    cases b with
    | nil => simp [strLtL] at h1
    | cons y ys =>
      cases c with
      | nil => simp [strLtL] at h2
      | cons z zs =>
        simp only [strLtL] at h1 h2 ⊢
        by_cases hxy : x = y
        · subst hxy
          simp only [if_pos rfl] at h1
          by_cases hyz : x = z
          · subst hyz
            simp only [if_pos rfl] at h2 ⊢
            exact ih ys zs h1 h2
          · simp only [if_neg hyz] at h2 ⊢
            exact h2
        · simp only [if_neg hxy] at h1
          by_cases hyz : y = z
          · subst hyz
            simp only [if_neg hxy]
            exact h1
          · simp only [if_neg hyz] at h2
            have hxz : x ≠ z := by
              intro he
              subst he
              exact charLtB_asymm h1 h2
            simp only [if_neg hxz]
            exact charLtB_trans h1 h2

theorem strLtL_conn : ∀ a b, strLtL a b = false → strLtL b a = false →
    a = b := by
  intro a
  induction a with
  | nil =>
    intro b h1 _
    cases b with
    | nil => rfl
    | cons y ys => simp [strLtL] at h1
  | cons x xs ih =>
    intro b h1 h2
    cases b with
    | nil => simp [strLtL] at h2
    | cons y ys =>
      simp only [strLtL] at h1 h2
      by_cases hxy : x = y
      · subst hxy
        simp only [if_pos rfl] at h1 h2
        rw [ih ys h1 h2]
      · simp only [if_neg hxy] at h1
        simp only [if_neg (Ne.symm hxy)] at h2
        exact absurd (charLtB_conn h1 h2) hxy

theorem strLtL_irrefl : ∀ a, strLtL a a = false := by
  intro a
  induction a with
  | nil => rfl
  | cons x xs ih => simp [strLtL, ih]

theorem strLeB_total (a b : String) : strLeB a b = true ∨ strLeB b a = true := by
  by_cases h : a = b
  · subst h
    left
    simp [strLeB]
  · rcases h1 : strLtL a.data b.data with _ | _
    · rcases h2 : strLtL b.data a.data with _ | _
      · have : a.data = b.data := strLtL_conn _ _ h1 h2
        cases a
        cases b
        simp_all
      · right
        simp [strLeB, strLtB, h2]
    · left
      simp [strLeB, strLtB, h1]

theorem strLeB_trans {a b c : String} (h1 : strLeB a b = true)
    (h2 : strLeB b c = true) : strLeB a c = true := by
  simp only [strLeB, Bool.or_eq_true, beq_iff_eq] at h1 h2 ⊢
  rcases h1 with h1 | h1
  · subst h1
    exact h2
  · rcases h2 with h2 | h2
    · subst h2
      right
      exact h1
    · right
      exact strLtL_trans _ _ _ h1 h2

theorem strLeB_antisymm {a b : String} (h1 : strLeB a b = true)
    (h2 : strLeB b a = true) : a = b := by
  simp only [strLeB, Bool.or_eq_true, beq_iff_eq] at h1 h2
  rcases h1 with h1 | h1
  · exact h1
  · rcases h2 with h2 | h2
    · exact h2.symm
    · exact absurd (strLtL_trans _ _ _ h1 h2) (by simp [strLtL_irrefl])

instance : IsTotal PkgEntry PkgLe := by
  constructor
  intro a b
  simp only [PkgLe, pkgKeyLe]
  by_cases h : a.code = b.code
  · simp only [if_pos h, if_pos h.symm]
    exact strLeB_total a.inm b.inm
  · simp only [if_neg h, if_neg (Ne.symm h)]
    rcases h1 : charLtB a.code b.code with _ | _
    · rcases h2 : charLtB b.code a.code with _ | _
      · exact absurd (charLtB_conn h1 h2) h
      · right
        rfl
    · left
      rfl

instance : IsTrans PkgEntry PkgLe := by
  constructor
  intro a b c h1 h2
  simp only [PkgLe, pkgKeyLe] at h1 h2 ⊢
  by_cases hab : a.code = b.code
  · rw [if_pos hab] at h1
    by_cases hbc : b.code = c.code
    · rw [if_pos hbc] at h2
      rw [if_pos (hab.trans hbc)]
      exact strLeB_trans h1 h2
    · rw [if_neg hbc] at h2
      rw [hab, if_neg hbc]
      exact h2
  · rw [if_neg hab] at h1
    by_cases hbc : b.code = c.code
    · rw [if_neg (hbc ▸ hab)]
      rw [← hbc]
      exact h1
    · rw [if_neg hbc] at h2
      have hac : a.code ≠ c.code := by
        intro he
        exact charLtB_asymm (he ▸ h1) h2
      rw [if_neg hac]
      exact charLtB_trans h1 h2

theorem pkgKeyLe_antisymm {a b : PkgEntry} (h1 : pkgKeyLe a b = true)
    (h2 : pkgKeyLe b a = true) : pkgKey a = pkgKey b := by
  simp only [pkgKeyLe] at h1 h2
  by_cases h : a.code = b.code
  · rw [if_pos h] at h1
    rw [if_pos h.symm] at h2
    simp only [pkgKey, h, strLeB_antisymm h1 h2]
  · rw [if_neg h] at h1
    rw [if_neg (Ne.symm h)] at h2
    exact absurd (charLtB_asymm h1 h2) (fun x => x)

/-- Two sorted lists that are permutations of each other and have pairwise
distinct sort keys are equal (stability of the final ordering under such
keys). -/
theorem sorted_perm_eq_of_nodup_keys : ∀ (l₁ l₂ : List PkgEntry),
    l₁.Perm l₂ → l₁.Sorted PkgLe → l₂.Sorted PkgLe →
    (l₁.map pkgKey).Nodup → l₁ = l₂ := by
  intro l₁
  induction l₁ with
  | nil =>
    intro l₂ hp _ _ _
    exact List.Perm.nil_eq hp
  | cons a t₁ ih =>
    intro l₂ hp hs₁ hs₂ hn
    cases l₂ with
    | nil => exact absurd hp.symm (by simp)
    | cons b t₂ =>
      by_cases hab : a = b
      · subst hab
        have hp' : t₁.Perm t₂ := List.Perm.cons_inv hp
        have hn' : (t₁.map pkgKey).Nodup := by
          simp only [List.map_cons, List.nodup_cons] at hn
          exact hn.2
        rw [ih t₂ hp' (List.Sorted.of_cons hs₁) (List.Sorted.of_cons hs₂) hn']
      · have hamem : a ∈ b :: t₂ := hp.subset (by simp)
        have hbmem : b ∈ a :: t₁ := hp.symm.subset (by simp)
        have hat2 : a ∈ t₂ := by
          rcases List.mem_cons.mp hamem with h | h
          · exact absurd h hab
          · exact h
        have hbt1 : b ∈ t₁ := by
          rcases List.mem_cons.mp hbmem with h | h
          · exact absurd h.symm hab
          · exact h
        have h1 : PkgLe a b := (List.sorted_cons.mp hs₁).1 b hbt1
        have h2 : PkgLe b a := (List.sorted_cons.mp hs₂).1 a hat2
        have hkey : pkgKey a = pkgKey b := pkgKeyLe_antisymm h1 h2
        have hmem : pkgKey b ∈ t₁.map pkgKey := List.mem_map_of_mem pkgKey hbt1
        rw [← hkey] at hmem
        simp only [List.map_cons, List.nodup_cons] at hn
        exact absurd hmem hn.1

theorem map_id_of_mem {f : Entry → Entry} : ∀ (l : List Entry),
    (∀ e ∈ l, f e = e) → l.map f = l := by
  intro l h
  induction l with
  | nil => rfl
  | cons x xs ih =>
    simp only [List.map_cons, h x (by simp)]
    rw [ih fun e he => h e (by simp [he])]

theorem lookup_isSome_iff_contains : ∀ (l : List (String × String)) (k : String),
    (l.lookup k).isSome = (l.map Prod.fst).contains k := by
  intro l k
  induction l with
  | nil => rfl
  | cons p t ih =>
    obtain ⟨a, b⟩ := p
    simp only [List.lookup, List.map_cons, List.contains_cons]
    by_cases h : k == a
    · simp [h]
    · simp only [Bool.not_eq_true] at h
      simp [h, ih]

theorem pkgStep_mytoc (env : PkgEnv) (cfg : PkgConf) (st : PkgState)
    (e : Entry) (st₁ : PkgState) (h : pkgStep env cfg st e = some st₁) :
    ∃ s, st₁.mytoc = st.mytoc ++ s := by
  unfold pkgStep at h
  split at h
  · injection h with h2
    subst h2
    exact ⟨[], (List.append_nil _).symm⟩
  · split at h
    · split at h
      · injection h with h2
        subst h2
        exact ⟨[], (List.append_nil _).symm⟩
      · split at h
        · injection h with h2
          subst h2
          exact ⟨[], (List.append_nil _).symm⟩
        · split at h
          · injection h with h2
            subst h2
            exact ⟨_, rfl⟩
          · injection h with h2
            subst h2
            exact ⟨_, rfl⟩
    · split at h
      · injection h with h2
        subst h2
        exact ⟨_, rfl⟩
      · split at h
        · split at h
          · cases h
          · injection h with h2
            subst h2
            exact ⟨[], (List.append_nil _).symm⟩
        · injection h with h2
          subst h2
          exact ⟨_, rfl⟩

theorem pkgLoop_mytoc_extend (env : PkgEnv) (cfg : PkgConf) :
    ∀ (toc : List Entry) (st st' : PkgState),
    pkgLoop env cfg st toc = some st' →
    ∃ tail, st'.mytoc = st.mytoc ++ tail := by
  intro toc
  induction toc with
  | nil =>
    intro st st' h
    injection h with h2
    subst h2
    exact ⟨[], (List.append_nil _).symm⟩
  | cons x rest ih =>
    intro st st' h
    simp only [pkgLoop] at h
    cases hstep : pkgStep env cfg st x with
    | none => rw [hstep] at h; cases h
    | some st₁ =>
      rw [hstep] at h
      obtain ⟨s1, hs1⟩ := pkgStep_mytoc env cfg st x st₁ hstep
      obtain ⟨s2, hs2⟩ := ih st₁ st' h
      exact ⟨s1 ++ s2, by rw [hs2, hs1, List.append_assoc]⟩

theorem pkgLoop_option_mem (env : PkgEnv) (cfg : PkgConf) :
    ∀ (toc : List Entry) (st st' : PkgState) (e : Entry),
    e ∈ toc → e.typ = Typ.OPTION → e.fnm = "" →
    pkgLoop env cfg st toc = some st' →
    (⟨e.inm, "", 0, 'o'⟩ : PkgEntry) ∈ st'.mytoc := by
  intro toc
  induction toc with
  | nil =>
    intro st st' e he
    cases he
  | cons x rest ih =>
    intro st st' e he hopt hfnm h
    simp only [pkgLoop] at h
    cases hstep : pkgStep env cfg st x with
    | none => rw [hstep] at h; cases h
    | some st₁ =>
      rw [hstep] at h
      rcases List.mem_cons.mp he with rfl | hmem
      · have hstep' : pkgStep env cfg st e =
            some { st with mytoc := st.mytoc ++ [⟨e.inm, "", 0, 'o'⟩] } := by
          simp [pkgStep, hopt, hfnm, binaryLike]
        have h2 := hstep'.symm.trans hstep
        injection h2 with h2
        obtain ⟨tail, htail⟩ := pkgLoop_mytoc_extend env cfg rest st₁ st' h
        rw [htail, ← h2]
        simp
      · exact ih st₁ st' e hmem hopt hfnm h

/-- C8: every OPTION entry of the manifest (empty source path) yields a
table row with that internal name, empty payload source, compression flag 0
and type code 'o'; OPTION entries are never dropped by the
missing-backing-file check.  The closed conjunct is Scenario B of the
specification. -/
theorem claim_c8_option_entries :
    (∀ (env : PkgEnv) (cfg : PkgConf) (toc : List Entry) (e : Entry)
       (r : PKGRes),
       (∀ x ∈ toc, env.addSuffix x = x) → e ∈ toc → e.typ = Typ.OPTION →
       e.fnm = "" → pkgAssemble env cfg toc = some r →
       (⟨e.inm, "", 0, 'o'⟩ : PkgEntry) ∈ r.table) ∧
    pkgAssemble plainPkgEnv pkgConfDefault
      [⟨"runtime-tmpdir /tmp/x", "", Typ.OPTION⟩] =
      some ⟨[⟨"runtime-tmpdir /tmp/x", "", 0, 'o'⟩], []⟩ := by
  constructor
  · intro env cfg toc e r hid hmem hopt hfnm h
    unfold pkgAssemble at h
    rw [map_id_of_mem toc hid] at h
    cases hl : pkgLoop env cfg pkgInit toc with
    | none => rw [hl] at h; cases h
    | some st =>
      rw [hl] at h
      injection h with h
      subst h
      have hrow := pkgLoop_option_mem env cfg toc pkgInit st e hmem hopt hfnm hl
      have : (⟨e.inm, "", 0, 'o'⟩ : PkgEntry) ∈ List.insertionSort PkgLe st.mytoc := by
        simpa using hrow
      simp only []
      exact List.mem_append.mpr (Or.inr this)
  · decide

/-- Witness for C8 at Scenario B. -/
theorem claim_c8_option_entries_witness :
    (⟨"runtime-tmpdir /tmp/x", "", 0, 'o'⟩ : PkgEntry) ∈
      (⟨[⟨"runtime-tmpdir /tmp/x", "", 0, 'o'⟩], []⟩ : PKGRes).table :=
  claim_c8_option_entries.1 plainPkgEnv pkgConfDefault
    [⟨"runtime-tmpdir /tmp/x", "", Typ.OPTION⟩]
    ⟨"runtime-tmpdir /tmp/x", "", Typ.OPTION⟩
    ⟨[⟨"runtime-tmpdir /tmp/x", "", 0, 'o'⟩], []⟩
    (by decide) (by decide) rfl rfl (by decide)

theorem pkgLoop_all_binary (env : PkgEnv) (cfg : PkgConf)
    (hex : cfg.excludeBinaries = false) :
    ∀ (toc : List Entry) (st : PkgState),
    (∀ e ∈ toc, e.typ = Typ.BINARY) →
    (∀ e ∈ toc, env.isPathToEgg e.fnm = false) →
    ∃ st', pkgLoop env cfg st toc = some st' ∧
      st'.mytoc = st.mytoc ++
        (binFirstSeen (st.seenInms.map Prod.fst) toc).map (binOut env cfg) ∧
      st'.srctoc = st.srctoc := by
  intro toc
  induction toc with
  | nil =>
    intro st _ _
    exact ⟨st, rfl, by simp [binFirstSeen], rfl⟩
  | cons e rest ih =>
    intro st hbin hegg
    have hety : e.typ = Typ.BINARY := hbin e (by simp)
    have hegge : env.isPathToEgg e.fnm = false := hegg e (by simp)
    have hbin' : ∀ x ∈ rest, x.typ = Typ.BINARY := fun x hx => hbin x (by simp [hx])
    have hegg' : ∀ x ∈ rest, env.isPathToEgg x.fnm = false :=
      fun x hx => hegg x (by simp [hx])
    by_cases hc : (st.seenInms.lookup e.inm).isSome = true
    · -- duplicate internal name: warn and skip
      have hstep : pkgStep env cfg st e =
          some { st with warns := st.warns ++ [.dupName e.inm e.fnm] } := by
        simp [pkgStep, hegge, hety, binaryLike, hex, hc]
      obtain ⟨st', h1, h2, h3⟩ :=
        ih { st with warns := st.warns ++ [.dupName e.inm e.fnm] } hbin' hegg'
      refine ⟨st', ?_, ?_, h3⟩
      · simp only [pkgLoop, hstep]
        exact h1
      · have hcontain : (st.seenInms.map Prod.fst).contains e.inm = true := by
          rw [← lookup_isSome_iff_contains]
          exact hc
        rw [h2]
        have heq : binFirstSeen (List.map Prod.fst st.seenInms) (e :: rest) =
            binFirstSeen (List.map Prod.fst st.seenInms) rest := by
          simp only [binFirstSeen]
          rw [hcontain]
          simp
        rw [heq]
    · -- fresh internal name: keep (with or without the aliasing warning)
      have hc' : (st.seenInms.lookup e.inm).isSome = false :=
        Bool.not_eq_true _ ▸ hc
      have hcontain : (st.seenInms.map Prod.fst).contains e.inm = false := by
        rw [← lookup_isSome_iff_contains]
        exact hc'
      by_cases hf : (st.seenFnms.lookup e.fnm).isSome = true
      · have hstep : pkgStep env cfg st e =
            some (pkgKeepBinary env cfg
              { st with warns := st.warns ++ [.dupPath e.inm e.fnm] } e) := by
          simp [pkgStep, hegge, hety, binaryLike, hex, hc', hf]
        obtain ⟨st', h1, h2, h3⟩ :=
          ih (pkgKeepBinary env cfg
            { st with warns := st.warns ++ [.dupPath e.inm e.fnm] } e) hbin' hegg'
        refine ⟨st', ?_, ?_, h3⟩
        · simp only [pkgLoop, hstep]
          exact h1
        · rw [h2]
          simp only [pkgKeepBinary, binFirstSeen, hcontain, Bool.false_eq_true,
            if_false, List.map_cons, List.map]
          rw [List.append_assoc]
          simp [binOut, hety, xformdict]
      · have hf' : (st.seenFnms.lookup e.fnm).isSome = false :=
          Bool.not_eq_true _ ▸ hf
        have hstep : pkgStep env cfg st e =
            some (pkgKeepBinary env cfg st e) := by
          simp [pkgStep, hegge, hety, binaryLike, hex, hc', hf']
        obtain ⟨st', h1, h2, h3⟩ :=
          ih (pkgKeepBinary env cfg st e) hbin' hegg'
        refine ⟨st', ?_, ?_, h3⟩
        · simp only [pkgLoop, hstep]
          exact h1
        · rw [h2]
          simp only [pkgKeepBinary, binFirstSeen, hcontain, Bool.false_eq_true,
            if_false, List.map_cons, List.map]
          rw [List.append_assoc]
          simp [binOut, hety, xformdict]

/-- C1: for manifests of BINARY entries processed with exclude_binaries
false, the archive table retains exactly the first occurrence of every
internal name in manifest order (so two source paths under one internal
name keep only the first, while one source path under two internal names
keeps both), assemble never aborts, and — closed conjuncts — Scenario A
yields exactly one a.so row backed by /src/a.so with a duplicate-name
warning, and the aliasing scenario keeps both rows with a warning only. -/
theorem claim_c1_pkg_binary_dedup :
    (∀ (env : PkgEnv) (cfg : PkgConf) (toc : List Entry),
       cfg.excludeBinaries = false →
       (∀ e ∈ toc, env.addSuffix e = e) →
       (∀ e ∈ toc, e.typ = Typ.BINARY) →
       (∀ e ∈ toc, env.isPathToEgg e.fnm = false) →
       ∃ w, pkgAssemble env cfg toc =
         some ⟨List.insertionSort PkgLe
           ((binFirstSeen [] toc).map (binOut env cfg)), w⟩) ∧
    pkgAssemble plainPkgEnv pkgConfDefault
      [⟨"a.so", "/src/a.so", Typ.BINARY⟩, ⟨"a.so", "/other/a.so", Typ.BINARY⟩] =
      some ⟨[⟨"a.so", "/src/a.so", 1, 'b'⟩],
        [.dupName "a.so" "/other/a.so"]⟩ ∧
    pkgAssemble plainPkgEnv pkgConfDefault
      [⟨"a.so", "/x.so", Typ.BINARY⟩, ⟨"b.so", "/x.so", Typ.BINARY⟩] =
      some ⟨[⟨"a.so", "/x.so", 1, 'b'⟩, ⟨"b.so", "/x.so", 1, 'b'⟩],
        [.dupPath "b.so" "/x.so"]⟩ := by
  refine ⟨?_, by decide, by decide⟩
  intro env cfg toc hex hid hbin hegg
  obtain ⟨st', h1, h2, h3⟩ := pkgLoop_all_binary env cfg hex toc pkgInit hbin hegg
  refine ⟨st'.warns, ?_⟩
  have hval : pkgAssemble env cfg toc =
      some ⟨st'.srctoc ++ List.insertionSort PkgLe st'.mytoc, st'.warns⟩ := by
    unfold pkgAssemble
    rw [map_id_of_mem toc hid, h1]
  rw [hval, h3, h2]
  rfl

/-- Witness for C1 on a one-entry manifest. -/
theorem claim_c1_pkg_binary_dedup_witness :
    ∃ w, pkgAssemble plainPkgEnv pkgConfDefault
      [⟨"m.so", "/m.so", Typ.BINARY⟩] =
      some ⟨List.insertionSort PkgLe
        ((binFirstSeen [] [⟨"m.so", "/m.so", Typ.BINARY⟩]).map
          (binOut plainPkgEnv pkgConfDefault)), w⟩ :=
  claim_c1_pkg_binary_dedup.1 plainPkgEnv pkgConfDefault
    [⟨"m.so", "/m.so", Typ.BINARY⟩] rfl (by decide) (by decide) (by decide)

/-- C2 counterexample: swapping two retained non-source entries (two DATA
rows with the same internal name and type code but different backing
paths) changes the archive output, because the stable sort preserves their
relative manifest order.  This refutes the claim that permuting the
non-source/non-module entries of the manifest never changes the output. -/
theorem claim_c2_counterexample :
    ([⟨"d", "/y", Typ.DATA⟩, ⟨"d", "/x", Typ.DATA⟩] : List Entry).Perm
      [⟨"d", "/x", Typ.DATA⟩, ⟨"d", "/y", Typ.DATA⟩] ∧
    (∀ e ∈ ([⟨"d", "/x", Typ.DATA⟩, ⟨"d", "/y", Typ.DATA⟩] : List Entry),
      isSrcTyp e.typ = false) ∧
    pkgAssemble plainPkgEnv pkgConfDefault
      [⟨"d", "/x", Typ.DATA⟩, ⟨"d", "/y", Typ.DATA⟩] ≠
    pkgAssemble plainPkgEnv pkgConfDefault
      [⟨"d", "/y", Typ.DATA⟩, ⟨"d", "/x", Typ.DATA⟩] :=
  ⟨List.Perm.swap _ _ _, by decide, by decide⟩

/-- C6: EXE._check_guts reports fresh (false) exactly when the output
executable exists, in sidecar mode the sidecar archive exists, the generic
Build Node check is clean, the recorded mtime matches the executable, and
the feeding Container Archive's record is not newer than the recorded
mtime — equivalently, any of these conditions failing makes it report
stale. -/
theorem claim_c6_exe_check_guts :
    ∀ (appendPkg : Bool) (env : ExeGutsEnv),
    exeCheckGuts appendPkg env = false ↔
      (env.exeExists = true ∧ (appendPkg = true ∨ env.pkgFileExists = true) ∧
       env.targetStale = false ∧ env.mtm = env.exeMtime ∧
       ¬ env.mtm < env.pkgTocMtime) := by
  intro appendPkg env
  obtain ⟨he, hp, ht, m, em, pm⟩ := env
  cases he <;> cases hp <;> cases ht <;> cases appendPkg <;>
    simp [exeCheckGuts] <;> omega

/-- C7: when the prebuilt bootloader binary for the platform is missing,
EXE.assemble aborts with the fatal SystemExit message and performs no
attachment action: no output artifact is produced. -/
theorem claim_c7_missing_bootloader_fatal :
    ∀ (appendPkg : Bool) (env : ExeEnv), env.bootExists = false →
    (exeAssemble appendPkg env).2 = some missingBootloaderMsg ∧
    ∀ a ∈ (exeAssemble appendPkg env).1,
      a = ExeAct.removeOutput ∨ a = ExeAct.makeOutputDir := by
  intro appendPkg env hb
  obtain ⟨n, d, b⟩ := env
  cases hb
  cases appendPkg <;> cases n <;> cases d <;> exact ⟨rfl, by decide⟩

/-- Witness for C7. -/
theorem claim_c7_missing_bootloader_fatal_witness :
    (exeAssemble true ⟨true, true, false⟩).2 = some missingBootloaderMsg ∧
    ∀ a ∈ (exeAssemble true ⟨true, true, false⟩).1,
      a = ExeAct.removeOutput ∨ a = ExeAct.makeOutputDir :=
  claim_c7_missing_bootloader_fatal true ⟨true, true, false⟩ rfl

/-- C10: EXE.assemble deletes an existing output executable as its very
first action, before the bootloader check; hence when the bootloader is
missing the build aborts with the prior artifact already deleted and never
rewritten (no attachment action occurs). -/
theorem claim_c10_exe_deletes_output_first :
    ∀ (appendPkg : Bool) (env : ExeEnv), env.nameExists = true →
    (exeAssemble appendPkg env).1.head? = some ExeAct.removeOutput ∧
    (env.bootExists = false →
      (exeAssemble appendPkg env).2.isSome = true ∧
      ∀ a ∈ (exeAssemble appendPkg env).1,
        a ≠ ExeAct.copyBootToOutput ∧ a ≠ ExeAct.appendBootPkg) := by
  intro appendPkg env hn
  obtain ⟨n, d, b⟩ := env
  cases hn
  cases appendPkg <;> cases d <;> cases b <;> exact ⟨by decide, by decide⟩

/-- Witness for C10. -/
theorem claim_c10_exe_deletes_output_first_witness :
    (exeAssemble true ⟨true, true, false⟩).1.head? = some ExeAct.removeOutput ∧
    (false = false →
      (exeAssemble true ⟨true, true, false⟩).2.isSome = true ∧
      ∀ a ∈ (exeAssemble true ⟨true, true, false⟩).1,
        a ≠ ExeAct.copyBootToOutput ∧ a ≠ ExeAct.appendBootPkg) :=
  claim_c10_exe_deletes_output_first true ⟨true, true, false⟩ rfl

theorem pyzLoop_count (env : PyzEnv) (e : Entry)
    (hm : e.typ = Typ.PYMODULE)
    (hfail : ∀ p, env.getCode e.inm p = none) :
    ∀ (pending cur : List Entry) (cd : List (String × Code)),
    cd.lookup e.inm = none →
    pending.count e ≤ cur.count e →
    ((pyzLoop env pending cur cd).1).count e =
      cur.count e - pending.count e := by
  intro pending
  induction pending with
  | nil =>
    intro cur cd _ _
    simp [pyzLoop]
  | cons x rest ih =>
    intro cur cd hcd hle
    by_cases hcond : (!(cd.lookup x.inm).isSome && (x.typ == Typ.PYMODULE)) = true
    · cases hg : env.getCode x.inm x.fnm with
      | some c =>
        have hne : x.inm ≠ e.inm := by
          intro he2
          rw [he2, hfail x.fnm] at hg
          cases hg
        have hxe : x ≠ e := fun he => hne (he ▸ rfl)
        have hbe : (e.inm == x.inm) = false := by
          simpa using Ne.symm hne
        have hcd' : (((x.inm, c) :: cd).lookup e.inm) = none := by
          simp only [List.lookup, hbe]
          exact hcd
        have hpc : (x :: rest).count e = rest.count e := by
          simp [List.count_cons, Ne.symm hxe]
        have hloop : pyzLoop env (x :: rest) cur cd =
            pyzLoop env rest cur ((x.inm, c) :: cd) := by
          simp only [pyzLoop]
          rw [if_pos hcond, hg]
        rw [hloop, hpc]
        exact ih cur ((x.inm, c) :: cd) hcd' (by omega)
      | none =>
        have hloop : pyzLoop env (x :: rest) cur cd =
            pyzLoop env rest (cur.erase x) cd := by
          simp only [pyzLoop]
          rw [if_pos hcond, hg]
        rw [hloop]
        by_cases hxe : x = e
        · subst hxe
          have hpc : (x :: rest).count x = rest.count x + 1 := by
            simp [List.count_cons]
          have hec : (cur.erase x).count x = cur.count x - 1 :=
            List.count_erase_self x cur
          rw [hpc] at hle
          rw [hpc, ih (cur.erase x) cd hcd (by omega), hec]
          omega
        · have hpc : (x :: rest).count e = rest.count e := by
            simp [List.count_cons, Ne.symm hxe]
          have hec : (cur.erase x).count e = cur.count e :=
            List.count_erase_of_ne (Ne.symm hxe) cur
          rw [hpc, ih (cur.erase x) cd hcd (by omega), hec]
    · have hxe : x ≠ e := by
        intro he
        subst he
        simp only [hcd, Option.isSome_none, Bool.not_false, hm] at hcond
        simp at hcond
      have hloop : pyzLoop env (x :: rest) cur cd =
          pyzLoop env rest cur cd := by
        simp only [pyzLoop]
        rw [if_neg hcond]
      have hpc : (x :: rest).count e = rest.count e := by
        simp [List.count_cons, Ne.symm hxe]
      rw [hloop, hpc]
      exact ih cur cd hcd (by omega)

/-- C3: a PYMODULE entry with no cached code object whose recompilation
fails (SyntaxError) is absent from the Module Archive's final sorted entry
set, and PYZ.assemble still completes (the function is total); the closed
conjunct is Scenario C with one failing and one compiling module. -/
theorem claim_c3_pyz_drop_bad_module :
    (∀ (env : PyzEnv) (toc deps : List Entry)
       (cache : List (String × Code)) (e : Entry),
       e.typ = Typ.PYMODULE →
       cache.lookup e.inm = none →
       (∀ p, env.getCode e.inm p = none) →
       e ∉ pyzAssemble env toc deps cache) ∧
    pyzAssemble ⟨fun n _ => if n == "bad" then none else some 7⟩
      [⟨"bad", "/bad.py", Typ.PYMODULE⟩, ⟨"good", "/good.py", Typ.PYMODULE⟩]
      [] [] = [⟨"good", "/good.py", Typ.PYMODULE⟩] := by
  refine ⟨?_, by decide⟩
  intro env toc deps cache e hm hcache hfail hmem
  unfold pyzAssemble at hmem
  have hmem' : e ∈ (pyzLoop env (tocSubtract toc deps)
      (tocSubtract toc deps) cache).1 := by
    have hperm := List.perm_insertionSort PyzLe
      (pyzLoop env (tocSubtract toc deps) (tocSubtract toc deps) cache).1
    exact hperm.subset hmem
  have hcount := pyzLoop_count env e hm hfail (tocSubtract toc deps)
    (tocSubtract toc deps) cache hcache le_rfl
  rw [Nat.sub_self] at hcount
  exact absurd hmem' (List.count_eq_zero.mp hcount)

/-- Witness for C3 at Scenario C. -/
theorem claim_c3_pyz_drop_bad_module_witness :
    (⟨"bad", "/bad.py", Typ.PYMODULE⟩ : Entry) ∉
      pyzAssemble ⟨fun n _ => if n == "bad" then none else some 7⟩
        [⟨"bad", "/bad.py", Typ.PYMODULE⟩,
         ⟨"good", "/good.py", Typ.PYMODULE⟩] [] [] :=
  claim_c3_pyz_drop_bad_module.1 _ _ _ _ _ rfl rfl (fun _ => rfl)

theorem collectCopyPart_dep (env : CollectEnv) (st : CState)
    (acts0 : List CAct) (e : Entry) (tofnm : String)
    (htyp : e.typ = Typ.DEPENDENCY) :
    collectCopyPart env st acts0 e tofnm = .ok acts0 st := by
  unfold collectCopyPart
  rw [htyp]
  simp

theorem collectStep_dep (env : CollectEnv) (name : String) (st : CState)
    (e : Entry) (htyp : e.typ = Typ.DEPENDENCY) (acts : List CAct)
    (st' : CState) (h : collectStep env name st e = .ok acts st') :
    st'.files = st.files ∧ ∀ a ∈ acts, isCopyAct a = false := by
  unfold collectStep at h
  split at h
  · injection h with ha hs
    subst ha
    subst hs
    exact ⟨rfl, by simp⟩
  · split at h
    · cases h
    · dsimp only at h
      split at h
      · rw [collectCopyPart_dep env _ _ e _ htyp] at h
        injection h with ha hs
        subst ha
        subst hs
        refine ⟨rfl, ?_⟩
        intro a ha
        rw [List.mem_singleton.mp ha]
        rfl
      · split at h
        · cases h
        · rw [collectCopyPart_dep env _ _ e _ htyp] at h
          injection h with ha hs
          subst ha
          subst hs
          exact ⟨rfl, by simp⟩

theorem collectLoop_dep_nocopy (env : CollectEnv) (name : String) :
    ∀ (toc : List Entry) (st : CState),
    (∀ e ∈ toc, e.typ = Typ.DEPENDENCY) →
    ∀ a ∈ (collectLoop env name st toc).1, isCopyAct a = false := by
  intro toc
  induction toc with
  | nil =>
    intro st _ a ha
    cases ha
  | cons x rest ih =>
    intro st htyp a ha
    cases hs : collectStep env name st x with
    | fatal m =>
      simp only [collectLoop, hs] at ha
      cases ha
    | ok acts st₁ =>
      simp only [collectLoop, hs] at ha
      rcases List.mem_append.mp ha with hl | hr
      · exact (collectStep_dep env name st x (htyp x (by simp)) acts st₁ hs).2 a hl
      · exact ih st₁ (fun e he => htyp e (by simp [he])) a hr

theorem collectStep_traversal (env : CollectEnv) (name : String)
    (st : CState) (e : Entry)
    (hkept : (!env.pathEx e.fnm ||
      (!env.isFile e.fnm && env.isPathToEgg e.fnm)) = false)
    (hbad : ((splitSlash (normpath e.inm)).contains ".." ||
      strStarts e.inm "/") = true) :
    collectStep env name st e = .fatal (secAlertMsg e.inm) := by
  unfold collectStep
  rw [hkept, hbad]
  simp

theorem collectStep_skip (env : CollectEnv) (name : String)
    (st : CState) (e : Entry)
    (hskip : (!env.pathEx e.fnm ||
      (!env.isFile e.fnm && env.isPathToEgg e.fnm)) = true) :
    collectStep env name st e = .ok [] st := by
  unfold collectStep
  rw [hskip]
  simp

/-- C9: a DEPENDENCY entry never copies a file or tree into the output
directory — one loop iteration on it adds no file to the directory state
and emits no copy action; a manifest made only of DEPENDENCY entries
produces no copy action at all; such an entry is still subject to the
path-traversal check; and — closed conjunct — it may still create its
parent subdirectory. -/
theorem claim_c9_dependency_no_copy :
    (∀ (env : CollectEnv) (name : String) (st : CState) (e : Entry)
       (acts : List CAct) (st' : CState),
       e.typ = Typ.DEPENDENCY →
       collectStep env name st e = .ok acts st' →
       st'.files = st.files ∧ ∀ a ∈ acts, isCopyAct a = false) ∧
    (∀ (env : CollectEnv) (name : String) (toc : List Entry),
       (∀ e ∈ toc, e.typ = Typ.DEPENDENCY) →
       (∀ e ∈ toc, env.addSuffix e = e) →
       ∀ a ∈ (collectAssemble env name toc).1, isCopyAct a = false) ∧
    (∀ (env : CollectEnv) (name : String) (st : CState) (e : Entry),
       e.typ = Typ.DEPENDENCY →
       (!env.pathEx e.fnm ||
         (!env.isFile e.fnm && env.isPathToEgg e.fnm)) = false →
       ((splitSlash (normpath e.inm)).contains ".." ||
         strStarts e.inm "/") = true →
       collectStep env name st e = .fatal (secAlertMsg e.inm)) ∧
    collectStep plainCollectEnv "dist" ⟨["dist"], []⟩
      ⟨"sub/a", "/src/good", Typ.DEPENDENCY⟩ =
      .ok [CAct.mkdirs "dist/sub"] ⟨["dist/sub", "dist", "dist"], []⟩ := by
  refine ⟨?_, ?_, ?_, by decide⟩
  · intro env name st e acts st' htyp h
    exact collectStep_dep env name st e htyp acts st' h
  · intro env name toc htyp hid a ha
    unfold collectAssemble at ha
    rw [map_id_of_mem toc hid] at ha
    rcases List.mem_cons.mp ha with rfl | hmem
    · rfl
    · exact collectLoop_dep_nocopy env name toc ⟨[name], []⟩ htyp a hmem
  · intro env name st e _ hkept hbad
    exact collectStep_traversal env name st e hkept hbad

/-- Witness for C9 at a one-entry DEPENDENCY manifest. -/
theorem claim_c9_dependency_no_copy_witness :
    ∀ a ∈ (collectAssemble plainCollectEnv "dist"
      [⟨"sub/a", "/src/good", Typ.DEPENDENCY⟩]).1, isCopyAct a = false :=
  claim_c9_dependency_no_copy.2.1 plainCollectEnv "dist"
    [⟨"sub/a", "/src/good", Typ.DEPENDENCY⟩] (by decide) (by decide)

/-- C4 counterexample: an entry whose internal name contains a parent
directory segment but whose backing file does not exist is silently
skipped — COLLECT.assemble completes without aborting; and when a good
entry precedes the offending one, the good entry's file is already copied
into the output directory before the abort.  Both refute the claim that
any traversal name aborts the build before any file is written. -/
theorem claim_c4_counterexample :
    (collectAssemble plainCollectEnv "dist"
      [⟨"../evil", "/nope", Typ.DATA⟩]).2.2 = none ∧
    (collectAssemble plainCollectEnv "dist"
      [⟨"good", "/src/good", Typ.DATA⟩,
       ⟨"../evil", "/src/good", Typ.DATA⟩]).2.2 =
      some (secAlertMsg "../evil") ∧
    CAct.copyFileAct "/src/good" "dist/good" ∈
      (collectAssemble plainCollectEnv "dist"
        [⟨"good", "/src/good", Typ.DATA⟩,
         ⟨"../evil", "/src/good", Typ.DATA⟩]).1 :=
  ⟨by decide, by decide, by decide⟩

theorem collectLoop_append (env : CollectEnv) (name : String) :
    ∀ (l₁ l₂ : List Entry) (st : CState),
    (collectLoop env name st l₁).2.2 = none →
    collectLoop env name st (l₁ ++ l₂) =
      ((collectLoop env name st l₁).1 ++
        (collectLoop env name (collectLoop env name st l₁).2.1 l₂).1,
       (collectLoop env name (collectLoop env name st l₁).2.1 l₂).2) := by
  intro l₁
  induction l₁ with
  | nil =>
    intro l₂ st _
    simp [collectLoop]
  | cons x rest ih =>
    intro l₂ st h
    cases hs : collectStep env name st x with
    | fatal m =>
      exfalso
      simp only [collectLoop, hs] at h
      cases h
    | ok acts st₁ =>
      have h' : (collectLoop env name st₁ rest).2.2 = none := by
        simpa only [collectLoop, hs] using h
      simp only [List.cons_append, collectLoop, hs]
      simp only [List.append_eq]
      rw [ih l₂ st₁ h']
      simp [List.append_assoc]

/-- C4 amended: an entry that passes the backing-file existence check and
whose internal name is absolute or still contains a '..' segment after
normalisation makes COLLECT.assemble abort fatally at that entry, provided
the entries before it completed without abort: the result carries exactly
the actions and directory state of the preceding entries and the
Security-Alert message — no file for the offending or any later entry is
written.  Entries failing the existence check are skipped without any
effect. -/
theorem claim_c4_traversal_guard_amended :
    (∀ (env : CollectEnv) (name : String) (toc : List Entry) (i : Nat)
       (hi : i < toc.length),
       (∀ e ∈ toc, env.addSuffix e = e) →
       (collectAssemble env name (toc.take i)).2.2 = none →
       (!env.pathEx toc[i].fnm ||
         (!env.isFile toc[i].fnm && env.isPathToEgg toc[i].fnm)) = false →
       ((splitSlash (normpath toc[i].inm)).contains ".." ||
         strStarts toc[i].inm "/") = true →
       collectAssemble env name toc =
         ((collectAssemble env name (toc.take i)).1,
          (collectAssemble env name (toc.take i)).2.1,
          some (secAlertMsg toc[i].inm))) ∧
    (∀ (env : CollectEnv) (name : String) (st : CState) (e : Entry)
       (rest : List Entry),
       (!env.pathEx e.fnm || (!env.isFile e.fnm && env.isPathToEgg e.fnm)) =
         true →
       collectLoop env name st (e :: rest) = collectLoop env name st rest) := by
  constructor
  · intro env name toc i hi hid hpre hkept hbad
    have hidt : (toc.take i).map env.addSuffix = toc.take i :=
      map_id_of_mem _ fun e he => hid e (List.take_subset i toc he)
    have hsplit : toc = toc.take i ++ (toc[i] :: toc.drop (i + 1)) := by
      rw [← List.drop_eq_getElem_cons hi, List.take_append_drop]
    unfold collectAssemble at hpre ⊢
    rw [hidt] at hpre ⊢
    rw [map_id_of_mem toc hid]
    have hpre' : (collectLoop env name ⟨[name], []⟩ (toc.take i)).2.2 = none :=
      hpre
    have hloop : collectLoop env name ⟨[name], []⟩ toc =
        ((collectLoop env name ⟨[name], []⟩ (toc.take i)).1,
         (collectLoop env name ⟨[name], []⟩ (toc.take i)).2.1,
         some (secAlertMsg toc[i].inm)) := by
      conv_lhs => rw [hsplit]
      rw [collectLoop_append env name _ _ _ hpre']
      have hstep := collectStep_traversal env name
        (collectLoop env name ⟨[name], []⟩ (toc.take i)).2.1 toc[i] hkept hbad
      simp only [collectLoop, hstep]
      simp
    rw [hloop]
  · intro env name st e rest hskip
    simp only [collectLoop, collectStep_skip env name st e hskip]
    simp

/-- Witness for C4's amended theorem at the two-entry counterexample
manifest (offending entry at index 1, after one successfully copied
entry), and for the skip conjunct at a nonexistent backing path. -/
theorem claim_c4_traversal_guard_amended_witness :
    collectAssemble plainCollectEnv "dist"
      [⟨"good", "/src/good", Typ.DATA⟩, ⟨"../evil", "/src/good", Typ.DATA⟩] =
      ((collectAssemble plainCollectEnv "dist"
         ([⟨"good", "/src/good", Typ.DATA⟩, ⟨"../evil", "/src/good", Typ.DATA⟩].take 1)).1,
       (collectAssemble plainCollectEnv "dist"
         ([⟨"good", "/src/good", Typ.DATA⟩, ⟨"../evil", "/src/good", Typ.DATA⟩].take 1)).2.1,
       some (secAlertMsg "../evil")) :=
  claim_c4_traversal_guard_amended.1 plainCollectEnv "dist"
    [⟨"good", "/src/good", Typ.DATA⟩, ⟨"../evil", "/src/good", Typ.DATA⟩]
    1 (by decide) (by decide) (by decide) (by decide) (by decide)

theorem lookup_foldl_cons (path : String) : ∀ (toc : List Entry)
    (deps : List (String × String)) (g : String),
    (toc.foldl (fun d e => (e.fnm, path) :: d) deps).lookup g =
      if (toc.map Entry.fnm).contains g then some path
      else deps.lookup g := by
  intro toc
  induction toc with
  | nil =>
    intro deps g
    simp
  | cons e rest ih =>
    intro deps g
    simp only [List.foldl_cons, List.map_cons, List.contains_cons]
    rw [ih]
    by_cases hg : (rest.map Entry.fnm).contains g = true
    · have hex : ∃ a ∈ rest, a.fnm = g := by simpa using hg
      simp [hex]
    · have hnex : ¬ ∃ a ∈ rest, a.fnm = g := by simpa using hg
      by_cases hge : g = e.fnm
      · simp [hnex, hge, List.lookup]
      · have hbe : (g == e.fnm) = false := by simpa using hge
        simp [hnex, List.lookup, hbe]

theorem setDepToc_fresh (path : String) : ∀ (toc : List Entry)
    (deps : List (String × String)),
    (∀ e ∈ toc, deps.lookup e.fnm = none) →
    ((toc.map Entry.fnm).Nodup) →
    setDepToc path deps toc =
      (toc, toc.foldl (fun d e => (e.fnm, path) :: d) deps, []) := by
  intro toc
  induction toc with
  | nil =>
    intro deps _ _
    rfl
  | cons e rest ih =>
    intro deps hfresh hnd
    simp only [List.map_cons, List.nodup_cons] at hnd
    have hfresh' : ∀ x ∈ rest, (((e.fnm, path) :: deps).lookup x.fnm) = none := by
      intro x hx
      have hne : (x.fnm == e.fnm) = false := by
        simp only [beq_eq_false_iff_ne, ne_eq]
        intro he
        exact hnd.1 (he ▸ List.mem_map_of_mem Entry.fnm hx)
      simp only [List.lookup, hne]
      exact hfresh x (by simp [hx])
    simp only [setDepToc, hfresh e (by simp)]
    rw [ih ((e.fnm, path) :: deps) hfresh' hnd.2]
    rfl

theorem setDepToc_claimed (path p0 f : String) : ∀ (toc : List Entry)
    (deps : List (String × String)),
    deps.lookup f = some p0 →
    ((setDepToc path deps toc).1.filter fun x => x.fnm == f) = [] ∧
    ((setDepToc path deps toc).2.2.filter fun x => x.fnm == f) =
      (toc.filter fun x => x.fnm == f).map
        (fun e => ⟨getRelativePath path p0 ++ ":" ++ e.inm, e.fnm,
          Typ.DEPENDENCY⟩) ∧
    (setDepToc path deps toc).2.1.lookup f = some p0 := by
  intro toc
  induction toc with
  | nil =>
    intro deps h
    exact ⟨rfl, rfl, h⟩
  | cons e rest ih =>
    intro deps h
    by_cases hef : e.fnm = f
    · have hl : deps.lookup e.fnm = some p0 := by
        rw [hef]
        exact h
      simp only [setDepToc, hl]
      obtain ⟨h1, h2, h3⟩ := ih deps h
      refine ⟨h1, ?_, h3⟩
      rw [List.filter_cons, List.filter_cons]
      simp only [hef, beq_self_eq_true, if_true]
      rw [List.map_cons, h2, hef]
    · cases hl : deps.lookup e.fnm with
      | none =>
        have hbe : (f == e.fnm) = false := by
          simpa using Ne.symm hef
        have h' : (((e.fnm, path) :: deps).lookup f) = some p0 := by
          simp only [List.lookup, hbe]
          exact h
        simp only [setDepToc, hl]
        obtain ⟨h1, h2, h3⟩ := ih ((e.fnm, path) :: deps) h'
        refine ⟨?_, ?_, h3⟩
        · rw [List.filter_cons]
          simp [hef, h1]
        · rw [List.filter_cons]
          simp [hef, h2]
      | some owner =>
        simp only [setDepToc, hl]
        obtain ⟨h1, h2, h3⟩ := ih deps h
        refine ⟨h1, ?_, h3⟩
        rw [List.filter_cons, List.filter_cons]
        simp [hef, h2]

theorem setDependencies_claimed (p0 f : String)
    (deps : List (String × String)) (a : Analysis) (p : String)
    (h : deps.lookup f = some p0)
    (h1 : ((a.binaries ++ a.datas).filter fun x => x.fnm == f).length = 1) :
    mergeResultOk p0 f (a, p) (setDependencies deps a p).1 ∧
    (setDependencies deps a p).2.lookup f = some p0 := by
  obtain ⟨hb1, hb2, hb3⟩ := setDepToc_claimed p p0 f a.binaries deps h
  obtain ⟨hd1, hd2, hd3⟩ :=
    setDepToc_claimed p p0 f a.datas (setDepToc p deps a.binaries).2.1 hb3
  obtain ⟨e, he⟩ := List.length_eq_one.mp h1
  have hsd1 : (setDependencies deps a p).1.binaries =
      (setDepToc p deps a.binaries).1 := rfl
  have hsd2 : (setDependencies deps a p).1.datas =
      (setDepToc p (setDepToc p deps a.binaries).2.1 a.datas).1 := rfl
  have hsd3 : (setDependencies deps a p).1.dependencies =
      a.dependencies ++ (setDepToc p deps a.binaries).2.2 ++
      (setDepToc p (setDepToc p deps a.binaries).2.1 a.datas).2.2 := rfl
  have hsd4 : (setDependencies deps a p).2 =
      (setDepToc p (setDepToc p deps a.binaries).2.1 a.datas).2.1 := rfl
  refine ⟨⟨?_, e, he, ?_⟩, by rw [hsd4]; exact hd3⟩
  · intro x hx hxf
    have hxb : (x.fnm == f) = true := by simpa using hxf
    rw [hsd1, hsd2] at hx
    rcases List.mem_append.mp hx with hm | hm
    · have hmem : x ∈ (setDepToc p deps a.binaries).1.filter
          fun y => y.fnm == f := List.mem_filter.mpr ⟨hm, hxb⟩
      rw [hb1] at hmem
      cases hmem
    · have hmem : x ∈ (setDepToc p (setDepToc p deps a.binaries).2.1
          a.datas).1.filter fun y => y.fnm == f :=
        List.mem_filter.mpr ⟨hm, hxb⟩
      rw [hd1] at hmem
      cases hmem
  · have hef : e.fnm = f := by
      have hme : e ∈ (a.binaries ++ a.datas).filter fun x => x.fnm == f := by
        rw [he]
        exact List.mem_singleton_self e
      simpa using List.of_mem_filter hme
    rw [hsd3, List.filter_append, List.filter_append, hb2, hd2,
      List.append_assoc, ← List.map_append, ← List.filter_append, he]
    simp [hef]

theorem setDependencies_fresh (a : Analysis) (p : String)
    (hn : ((a.binaries ++ a.datas).map Entry.fnm).Nodup) :
    (setDependencies [] a p).1 = a ∧
    ∀ g, g ∈ (a.binaries ++ a.datas).map Entry.fnm →
      (setDependencies [] a p).2.lookup g = some p := by
  rw [List.map_append, List.nodup_append] at hn
  obtain ⟨hnb, hnd, hdisj⟩ := hn
  have hb := setDepToc_fresh p a.binaries [] (fun e _ => rfl) hnb
  have hdfresh : ∀ x ∈ a.datas,
      ((setDepToc p [] a.binaries).2.1.lookup x.fnm) = none := by
    intro x hx
    have hnotb : x.fnm ∉ a.binaries.map Entry.fnm := fun hmb =>
      hdisj hmb (List.mem_map_of_mem Entry.fnm hx)
    have hcont : ((a.binaries.map Entry.fnm).contains x.fnm) = false := by
      simpa using hnotb
    rw [hb]
    show ((a.binaries.foldl (fun d e => (e.fnm, p) :: d) []).lookup x.fnm) =
      none
    rw [lookup_foldl_cons, hcont]
    simp
  have hd := setDepToc_fresh p a.datas (setDepToc p [] a.binaries).2.1
    hdfresh hnd
  constructor
  · have hstruct : (setDependencies [] a p).1 =
        ⟨a.binaries, a.datas, a.dependencies⟩ := by
      show (⟨(setDepToc p [] a.binaries).1,
        (setDepToc p (setDepToc p [] a.binaries).2.1 a.datas).1,
        a.dependencies ++ (setDepToc p [] a.binaries).2.2 ++
          (setDepToc p (setDepToc p [] a.binaries).2.1 a.datas).2.2⟩ :
          Analysis) = _
      rw [hd, hb]
      simp
    rw [hstruct]
  · intro g hg
    show ((setDepToc p (setDepToc p [] a.binaries).2.1 a.datas).2.1.lookup g) =
      some p
    rw [hd]
    show ((a.datas.foldl (fun d e => (e.fnm, p) :: d)
      (setDepToc p [] a.binaries).2.1).lookup g) = some p
    rw [hb]
    show ((a.datas.foldl (fun d e => (e.fnm, p) :: d)
      (a.binaries.foldl (fun d e => (e.fnm, p) :: d) [])).lookup g) = some p
    rw [lookup_foldl_cons, lookup_foldl_cons]
    rw [List.map_append] at hg
    rcases List.mem_append.mp hg with hgb | hgd
    · have hc : ((a.binaries.map Entry.fnm).contains g) = true := by
        simpa using hgb
      rw [hc]
      split <;> simp
    · have hc : ((a.datas.map Entry.fnm).contains g) = true := by
        simpa using hgd
      rw [hc]
      simp

theorem mergeDeps_claimed (p0 f : String) :
    ∀ (rest : List (Analysis × String)) (deps : List (String × String)),
    deps.lookup f = some p0 →
    (∀ ap ∈ rest,
      ((ap.1.binaries ++ ap.1.datas).filter fun x => x.fnm == f).length = 1) →
    List.Forall₂ (mergeResultOk p0 f) rest (mergeDependencies deps rest) := by
  intro rest
  induction rest with
  | nil =>
    intro deps _ _
    exact List.Forall₂.nil
  | cons ap rest ih =>
    intro deps h hcount
    obtain ⟨a, q⟩ := ap
    obtain ⟨h1, h2⟩ := setDependencies_claimed p0 f deps a q h
      (hcount (a, q) (by simp))
    exact List.Forall₂.cons h1
      (ih (setDependencies deps a q).2 h2 fun x hx => hcount x (by simp [hx]))

/-- C5 counterexample: two analyses share /f (each referencing it exactly
once), yet the first analysis is not retained untouched, because its own
manifests reference /g twice (once in binaries, once in datas): the datas
occurrence is removed from the first analysis and a self-referencing
DEPENDENCY entry is appended to its dependency set. -/
theorem claim_c5_counterexample :
    mergeAnalyses
      [(⟨[⟨"f", "/f", Typ.BINARY⟩, ⟨"g1", "/g", Typ.BINARY⟩],
         [⟨"g2", "/g", Typ.DATA⟩], []⟩, "A"),
       (⟨[⟨"f", "/f", Typ.BINARY⟩], [], []⟩, "B")] =
      [⟨[⟨"f", "/f", Typ.BINARY⟩, ⟨"g1", "/g", Typ.BINARY⟩], [],
        [⟨"A:g2", "/g", Typ.DEPENDENCY⟩]⟩,
       ⟨[], [], [⟨"A:f", "/f", Typ.DEPENDENCY⟩]⟩] ∧
    (⟨[⟨"f", "/f", Typ.BINARY⟩, ⟨"g1", "/g", Typ.BINARY⟩], [],
      [⟨"A:g2", "/g", Typ.DEPENDENCY⟩]⟩ : Analysis) ≠
      ⟨[⟨"f", "/f", Typ.BINARY⟩, ⟨"g1", "/g", Typ.BINARY⟩],
       [⟨"g2", "/g", Typ.DATA⟩], []⟩ :=
  ⟨by decide, by decide⟩

/-- C5 amended: when the first analysis's own binaries and datas reference
pairwise distinct source paths, MERGE leaves it entirely untouched; and for
a source path f that the first analysis owns and that every later analysis
references exactly once, each later analysis has its f entry removed from
its manifests and gains exactly one DEPENDENCY entry made of the relative
path to the owner and the original internal name. -/
theorem claim_c5_merge_dedup_amended :
    ∀ (a0 : Analysis) (p0 : String) (rest : List (Analysis × String))
      (f : String),
    ((a0.binaries ++ a0.datas).map Entry.fnm).Nodup →
    f ∈ (a0.binaries ++ a0.datas).map Entry.fnm →
    (∀ ap ∈ rest,
      ((ap.1.binaries ++ ap.1.datas).filter fun x => x.fnm == f).length = 1) →
    ∃ others, mergeAnalyses ((a0, p0) :: rest) = a0 :: others ∧
      List.Forall₂ (mergeResultOk p0 f) rest others := by
  intro a0 p0 rest f hn hf hcount
  obtain ⟨ha, hlk⟩ := setDependencies_fresh a0 p0 hn
  refine ⟨mergeDependencies (setDependencies [] a0 p0).2 rest, ?_, ?_⟩
  · show (setDependencies [] a0 p0).1 ::
      mergeDependencies (setDependencies [] a0 p0).2 rest = _
    rw [ha]
  · exact mergeDeps_claimed p0 f rest _ (hlk f hf) hcount

/-- Witness for C5's amended theorem: two analyses, each holding /f once. -/
theorem claim_c5_merge_dedup_amended_witness :
    ∃ others, mergeAnalyses
      [((⟨[⟨"f", "/f", Typ.BINARY⟩], [], []⟩ : Analysis), "A"),
       ((⟨[⟨"f", "/f", Typ.BINARY⟩], [], []⟩ : Analysis), "B")] =
      (⟨[⟨"f", "/f", Typ.BINARY⟩], [], []⟩ : Analysis) :: others ∧
      List.Forall₂ (mergeResultOk "A" "/f")
        [((⟨[⟨"f", "/f", Typ.BINARY⟩], [], []⟩ : Analysis), "B")] others :=
  claim_c5_merge_dedup_amended ⟨[⟨"f", "/f", Typ.BINARY⟩], [], []⟩ "A"
    [((⟨[⟨"f", "/f", Typ.BINARY⟩], [], []⟩ : Analysis), "B")] "/f"
    (by decide) (by decide) (by decide)

theorem binaryLike_not_src {t : Typ} (h : binaryLike t = true) :
    isSrcTyp t = false := by
  cases t <;> simp_all [binaryLike, isSrcTyp]

theorem pkgPure_src_none (env : PkgEnv) (cfg : PkgConf) (e : Entry)
    (h : isSrcTyp e.typ = true) : pkgPure env cfg e = none := by
  have hbl : binaryLike e.typ = false := by
    cases ht : e.typ <;> simp_all [binaryLike, isSrcTyp]
  have hop : (e.typ == Typ.OPTION) = false := by
    cases ht : e.typ <;> simp_all [isSrcTyp]
  simp [pkgPure, hbl, hop, h]

theorem srcFun_nonsrc_none (env : PkgEnv) (cfg : PkgConf) (e : Entry)
    (h : isSrcTyp e.typ = false) : srcFun env cfg e = none := by
  simp [srcFun, h]

theorem filterMap_eq_filterMap_filter {β : Type} (g : Entry → Option β)
    (p : Entry → Bool) (h : ∀ e, p e = false → g e = none) :
    ∀ l : List Entry, l.filterMap g = (l.filter p).filterMap g := by
  intro l
  induction l with
  | nil => rfl
  | cons x xs ih =>
    rw [List.filter_cons]
    by_cases hp : p x = true
    · simp only [hp, if_true, List.filterMap_cons, ih]
    · have hg := h x (by simpa using hp)
      simp only [hp, Bool.false_eq_true, if_false, List.filterMap_cons, hg,
        ih]

theorem pkgStep_srctoc (env : PkgEnv) (cfg : PkgConf) (st : PkgState)
    (e : Entry) (st₁ : PkgState) (h : pkgStep env cfg st e = some st₁) :
    st₁.srctoc = st.srctoc ++ (srcFun env cfg e).toList := by
  unfold pkgStep at h
  unfold srcFun
  split at h
  · rename_i hcond
    injection h with h2
    subst h2
    rw [if_pos hcond]
    simp
  · rename_i hcond
    rw [if_neg hcond]
    split at h
    · rename_i hbl
      have hns := binaryLike_not_src hbl
      rw [hns]
      split at h
      · injection h with h2
        subst h2
        simp
      · split at h
        · injection h with h2
          subst h2
          simp
        · split at h
          · injection h with h2
            subst h2
            simp [pkgKeepBinary]
          · injection h with h2
            subst h2
            simp [pkgKeepBinary]
    · split at h
      · rename_i hnb hop
        have hns : isSrcTyp e.typ = false := by
          have : e.typ = Typ.OPTION := by simpa using hop
          simp [this, isSrcTyp]
        rw [hns]
        injection h with h2
        subst h2
        simp
      · split at h
        · rename_i hnb hno hsrc
          rw [hsrc]
          cases hc : cfg.cdict e.typ with
          | none =>
            rw [hc] at h
            cases h
          | some c =>
            rw [hc] at h
            injection h with h2
            subst h2
            simp [hc]
        · rename_i hnb hno hnsrc
          rw [show isSrcTyp e.typ = false by simpa using hnsrc]
          injection h with h2
          subst h2
          simp

theorem pkgLoop_srctoc (env : PkgEnv) (cfg : PkgConf) :
    ∀ (toc : List Entry) (st st' : PkgState),
    pkgLoop env cfg st toc = some st' →
    st'.srctoc = st.srctoc ++ srcPart env cfg toc := by
  intro toc
  induction toc with
  | nil =>
    intro st st' h
    injection h with h2
    subst h2
    simp [srcPart]
  | cons x rest ih =>
    intro st st' h
    simp only [pkgLoop] at h
    cases hs : pkgStep env cfg st x with
    | none => rw [hs] at h; cases h
    | some st₁ =>
      rw [hs] at h
      rw [ih st₁ st' h, pkgStep_srctoc env cfg st x st₁ hs]
      cases hf : srcFun env cfg x with
      | none => simp [srcPart, List.filterMap_cons, hf]
      | some r => simp [srcPart, List.filterMap_cons, hf]

theorem pkgLoop_nodup_bin (env : PkgEnv) (cfg : PkgConf)
    (hcd : ∀ t, isSrcTyp t = true → (cfg.cdict t).isSome = true) :
    ∀ (toc : List Entry) (st : PkgState),
    (∀ e ∈ toc, binaryLike e.typ = true →
      (st.seenInms.lookup e.inm) = none) →
    List.Pairwise (fun a b => a.inm ≠ b.inm)
      (toc.filter fun e => binaryLike e.typ) →
    ∃ st', pkgLoop env cfg st toc = some st' ∧
      st'.mytoc = st.mytoc ++ toc.filterMap (pkgPure env cfg) := by
  intro toc
  induction toc with
  | nil =>
    intro st _ _
    exact ⟨st, rfl, by simp⟩
  | cons e rest ih =>
    intro st hinv hp
    by_cases hegg : (e.fnm != "" && !env.isFile e.fnm &&
        env.isPathToEgg e.fnm) = true
    · have hstep : pkgStep env cfg st e = some st := by
        unfold pkgStep
        rw [if_pos hegg]
      have hpure : pkgPure env cfg e = none := by
        unfold pkgPure
        rw [if_pos hegg]
      have hp' : List.Pairwise (fun a b => a.inm ≠ b.inm)
          (rest.filter fun x => binaryLike x.typ) := by
        rw [List.filter_cons] at hp
        split at hp
        · exact (List.pairwise_cons.mp hp).2
        · exact hp
      obtain ⟨st', h1, h2⟩ := ih st
        (fun x hx hb => hinv x (by simp [hx]) hb) hp'
      refine ⟨st', ?_, ?_⟩
      · simp only [pkgLoop, hstep]
        exact h1
      · rw [h2, List.filterMap_cons, hpure]
    · by_cases hbl : binaryLike e.typ = true
      · have hpc : List.Pairwise (fun a b => a.inm ≠ b.inm)
            (e :: rest.filter fun x => binaryLike x.typ) := by
          rw [List.filter_cons, if_pos hbl] at hp
          exact hp
        obtain ⟨hhead, htail⟩ := List.pairwise_cons.mp hpc
        by_cases hex : cfg.excludeBinaries = true
        · have hstep : pkgStep env cfg st e = some st := by
            unfold pkgStep
            rw [if_neg (by simp [hegg]), if_pos hbl, if_pos hex]
          have hpure : pkgPure env cfg e = none := by
            unfold pkgPure
            rw [if_neg (by simp [hegg]), if_pos hbl, if_pos hex]
          obtain ⟨st', h1, h2⟩ := ih st
            (fun x hx hb => hinv x (by simp [hx]) hb) htail
          refine ⟨st', ?_, ?_⟩
          · simp only [pkgLoop, hstep]
            exact h1
          · rw [h2, List.filterMap_cons, hpure]
        · have hlke : (st.seenInms.lookup e.inm) = none :=
            hinv e (by simp) hbl
          have hrow : pkgPure env cfg e =
              some ⟨e.inm, env.checkCache e.fnm e.inm,
                (cfg.cdict e.typ).getD 0, (xformdict e.typ).getD 'b'⟩ := by
            unfold pkgPure
            rw [if_neg (by simp [hegg]), if_pos hbl, if_neg (by simp [hex])]
          have hinv' : ∀ x ∈ rest, binaryLike x.typ = true →
              ((((e.inm, e.fnm)) :: st.seenInms).lookup x.inm) = none := by
            intro x hx hb
            have hxf : x ∈ rest.filter fun y => binaryLike y.typ :=
              List.mem_filter.mpr ⟨hx, hb⟩
            have hne : (x.inm == e.inm) = false := by
              simpa using (hhead x hxf).symm
            simp only [List.lookup, hne]
            exact hinv x (by simp [hx]) hb
          by_cases hf : (e.typ == Typ.BINARY &&
              (st.seenFnms.lookup e.fnm).isSome) = true
          · have hstep : pkgStep env cfg st e =
                some (pkgKeepBinary env cfg
                  { st with warns := st.warns ++ [.dupPath e.inm e.fnm] } e)
                := by
              unfold pkgStep
              rw [if_neg (by simp [hegg]), if_pos hbl, if_neg (by simp [hex]),
                if_neg (by simp [hlke]), if_pos hf]
            obtain ⟨st', h1, h2⟩ := ih (pkgKeepBinary env cfg
              { st with warns := st.warns ++ [.dupPath e.inm e.fnm] } e)
              (fun x hx hb => hinv' x hx hb) htail
            refine ⟨st', ?_, ?_⟩
            · simp only [pkgLoop, hstep]
              exact h1
            · rw [h2, List.filterMap_cons, hrow]
              simp [pkgKeepBinary, List.append_assoc]
          · have hstep : pkgStep env cfg st e =
                some (pkgKeepBinary env cfg st e) := by
              unfold pkgStep
              rw [if_neg (by simp [hegg]), if_pos hbl, if_neg (by simp [hex]),
                if_neg (by simp [hlke]), if_neg (by simp [hf])]
            obtain ⟨st', h1, h2⟩ := ih (pkgKeepBinary env cfg st e)
              (fun x hx hb => hinv' x hx hb) htail
            refine ⟨st', ?_, ?_⟩
            · simp only [pkgLoop, hstep]
              exact h1
            · rw [h2, List.filterMap_cons, hrow]
              simp [pkgKeepBinary, List.append_assoc]
      · have hp' : List.Pairwise (fun a b => a.inm ≠ b.inm)
            (rest.filter fun x => binaryLike x.typ) := by
          rw [List.filter_cons, if_neg (by simp [hbl])] at hp
          exact hp
        by_cases hop : (e.typ == Typ.OPTION) = true
        · have hstep : pkgStep env cfg st e =
              some { st with mytoc := st.mytoc ++ [⟨e.inm, "", 0, 'o'⟩] } := by
            unfold pkgStep
            rw [if_neg (by simp [hegg]), if_neg (by simp [hbl]), if_pos hop]
          have hpure : pkgPure env cfg e = some ⟨e.inm, "", 0, 'o'⟩ := by
            unfold pkgPure
            rw [if_neg (by simp [hegg]), if_neg (by simp [hbl]), if_pos hop]
          obtain ⟨st', h1, h2⟩ := ih
            { st with mytoc := st.mytoc ++ [⟨e.inm, "", 0, 'o'⟩] }
            (fun x hx hb => hinv x (by simp [hx]) hb) hp'
          refine ⟨st', ?_, ?_⟩
          · simp only [pkgLoop, hstep]
            exact h1
          · rw [h2, List.filterMap_cons, hpure]
            simp [List.append_assoc]
        · by_cases hsrc : isSrcTyp e.typ = true
          · obtain ⟨c, hc⟩ := Option.isSome_iff_exists.mp (hcd e.typ hsrc)
            have hstep : pkgStep env cfg st e =
                some { st with srctoc := st.srctoc ++
                  [⟨e.inm, e.fnm, c, (xformdict e.typ).getD 'b'⟩] } := by
              unfold pkgStep
              rw [if_neg (by simp [hegg]), if_neg (by simp [hbl]),
                if_neg (by simp [hop]), if_pos hsrc, hc]
            have hpure : pkgPure env cfg e = none :=
              pkgPure_src_none env cfg e hsrc
            obtain ⟨st', h1, h2⟩ := ih
              { st with srctoc := st.srctoc ++
                [⟨e.inm, e.fnm, c, (xformdict e.typ).getD 'b'⟩] }
              (fun x hx hb => hinv x (by simp [hx]) hb) hp'
            refine ⟨st', ?_, ?_⟩
            · simp only [pkgLoop, hstep]
              exact h1
            · rw [h2, List.filterMap_cons, hpure]
          · have hstep : pkgStep env cfg st e =
                some { st with mytoc := st.mytoc ++
                  [⟨e.inm, e.fnm, (cfg.cdict e.typ).getD 0,
                    (xformdict e.typ).getD 'b'⟩] } := by
              unfold pkgStep
              rw [if_neg (by simp [hegg]), if_neg (by simp [hbl]),
                if_neg (by simp [hop]), if_neg (by simp [hsrc])]
            have hpure : pkgPure env cfg e =
                some ⟨e.inm, e.fnm, (cfg.cdict e.typ).getD 0,
                  (xformdict e.typ).getD 'b'⟩ := by
              unfold pkgPure
              rw [if_neg (by simp [hegg]), if_neg (by simp [hbl]),
                if_neg (by simp [hop]), if_neg (by simp [hsrc])]
            obtain ⟨st', h1, h2⟩ := ih
              { st with mytoc := st.mytoc ++
                [⟨e.inm, e.fnm, (cfg.cdict e.typ).getD 0,
                  (xformdict e.typ).getD 'b'⟩] }
              (fun x hx hb => hinv x (by simp [hx]) hb) hp'
            refine ⟨st', ?_, ?_⟩
            · simp only [pkgLoop, hstep]
              exact h1
            · rw [h2, List.filterMap_cons, hpure]
              simp [List.append_assoc]

theorem bl_and_not_src (t : Typ) :
    (binaryLike t && !isSrcTyp t) = binaryLike t := by
  cases t <;> rfl

theorem pkgAssemble_nodup_bin (env : PkgEnv) (cfg : PkgConf)
    (hcd : ∀ t, isSrcTyp t = true → (cfg.cdict t).isSome = true)
    (toc : List Entry) (hid : ∀ e ∈ toc, env.addSuffix e = e)
    (hbn : List.Pairwise (fun a b => a.inm ≠ b.inm)
      (toc.filter fun e => binaryLike e.typ)) :
    ∃ w, pkgAssemble env cfg toc =
      some ⟨srcPart env cfg toc ++
        List.insertionSort PkgLe (toc.filterMap (pkgPure env cfg)), w⟩ := by
  obtain ⟨st', h1, h2⟩ := pkgLoop_nodup_bin env cfg hcd toc pkgInit
    (fun x _ _ => rfl) hbn
  have h3 := pkgLoop_srctoc env cfg toc pkgInit st' h1
  refine ⟨st'.warns, ?_⟩
  have hval : pkgAssemble env cfg toc =
      some ⟨st'.srctoc ++ List.insertionSort PkgLe st'.mytoc, st'.warns⟩ := by
    unfold pkgAssemble
    rw [map_id_of_mem toc hid, h1]
  rw [hval, h3, h2]
  rfl

/-- C2 amended: the archive table is always the PYSOURCE/PYMODULE rows in
exactly manifest order followed by a stably sorted block of the other
retained rows; permuting the non-source entries leaves the table unchanged
provided the retained binary-like internal names are pairwise distinct (no
dedup skip fires) and the retained rows have pairwise distinct
(type code, internal name) sort keys; rows with equal sort keys keep their
manifest order under the stable sort, so — closed conjunct — swapping two
equal-keyed DATA rows changes the output (see the counterexample), and
swapping two PYSOURCE entries changes the output. -/
theorem claim_c2_pkg_ordering_amended :
    (∀ (env : PkgEnv) (cfg : PkgConf) (toc : List Entry) (r : PKGRes),
       (∀ e ∈ toc, env.addSuffix e = e) →
       pkgAssemble env cfg toc = some r →
       ∃ m, r.table = srcPart env cfg toc ++ List.insertionSort PkgLe m) ∧
    (∀ (env : PkgEnv) (cfg : PkgConf) (toc toc' : List Entry),
       (∀ e ∈ toc, env.addSuffix e = e) →
       (∀ e ∈ toc', env.addSuffix e = e) →
       (∀ t, isSrcTyp t = true → (cfg.cdict t).isSome = true) →
       (toc.filter fun e => isSrcTyp e.typ) =
         (toc'.filter fun e => isSrcTyp e.typ) →
       (toc.filter fun e => !isSrcTyp e.typ).Perm
         (toc'.filter fun e => !isSrcTyp e.typ) →
       List.Pairwise (fun a b => a.inm ≠ b.inm)
         (toc.filter fun e => binaryLike e.typ) →
       ((toc.filterMap (pkgPure env cfg)).map pkgKey).Nodup →
       (pkgAssemble env cfg toc).map PKGRes.table =
         (pkgAssemble env cfg toc').map PKGRes.table) ∧
    (([⟨"s2", "/s2", Typ.PYSOURCE⟩, ⟨"s1", "/s1", Typ.PYSOURCE⟩] :
        List Entry).Perm
       [⟨"s1", "/s1", Typ.PYSOURCE⟩, ⟨"s2", "/s2", Typ.PYSOURCE⟩] ∧
     pkgAssemble plainPkgEnv pkgConfDefault
       [⟨"s1", "/s1", Typ.PYSOURCE⟩, ⟨"s2", "/s2", Typ.PYSOURCE⟩] ≠
     pkgAssemble plainPkgEnv pkgConfDefault
       [⟨"s2", "/s2", Typ.PYSOURCE⟩, ⟨"s1", "/s1", Typ.PYSOURCE⟩]) := by
  refine ⟨?_, ?_, List.Perm.swap _ _ _, by decide⟩
  · intro env cfg toc r hid h
    unfold pkgAssemble at h
    rw [map_id_of_mem toc hid] at h
    cases hl : pkgLoop env cfg pkgInit toc with
    | none => rw [hl] at h; cases h
    | some st =>
      rw [hl] at h
      injection h with h
      subst h
      refine ⟨st.mytoc, ?_⟩
      have h3 := pkgLoop_srctoc env cfg toc pkgInit st hl
      rw [h3]
      rfl
  · intro env cfg toc toc' hid hid' hcd hsrc hperm hbn hkeys
    have hpermb : (toc.filter fun e => binaryLike e.typ).Perm
        (toc'.filter fun e => binaryLike e.typ) := by
      have hpf := hperm.filter fun e => binaryLike e.typ
      rw [List.filter_filter, List.filter_filter] at hpf
      have hco : ∀ (l : List Entry),
          (l.filter fun a => binaryLike a.typ && !isSrcTyp a.typ) =
          l.filter fun a => binaryLike a.typ := by
        intro l
        apply List.filter_congr
        intro a _
        exact bl_and_not_src a.typ
      rw [hco, hco] at hpf
      exact hpf
    have hbn' : List.Pairwise (fun a b => a.inm ≠ b.inm)
        (toc'.filter fun e => binaryLike e.typ) :=
      (hpermb.pairwise_iff fun h => Ne.symm h).mp hbn
    have hfm : (toc.filterMap (pkgPure env cfg)).Perm
        (toc'.filterMap (pkgPure env cfg)) := by
      have hnonsrc : ∀ e : Entry, (!isSrcTyp e.typ) = false →
          pkgPure env cfg e = none := by
        intro e he
        exact pkgPure_src_none env cfg e (by simpa using he)
      rw [filterMap_eq_filterMap_filter (pkgPure env cfg) _ hnonsrc toc,
        filterMap_eq_filterMap_filter (pkgPure env cfg) _ hnonsrc toc']
      exact hperm.filterMap (pkgPure env cfg)
    have hsp : srcPart env cfg toc = srcPart env cfg toc' := by
      have hns : ∀ e : Entry, (isSrcTyp e.typ) = false →
          srcFun env cfg e = none := fun e he =>
        srcFun_nonsrc_none env cfg e he
      unfold srcPart
      rw [filterMap_eq_filterMap_filter (srcFun env cfg) _ hns toc,
        filterMap_eq_filterMap_filter (srcFun env cfg) _ hns toc', hsrc]
    have hkeys' : ((toc'.filterMap (pkgPure env cfg)).map pkgKey).Nodup :=
      ((hfm.map pkgKey).nodup_iff).mp hkeys
    obtain ⟨w, hw⟩ := pkgAssemble_nodup_bin env cfg hcd toc hid hbn
    obtain ⟨w', hw'⟩ := pkgAssemble_nodup_bin env cfg hcd toc' hid' hbn'
    have hsort : List.insertionSort PkgLe (toc.filterMap (pkgPure env cfg)) =
        List.insertionSort PkgLe (toc'.filterMap (pkgPure env cfg)) := by
      apply sorted_perm_eq_of_nodup_keys
      · exact (List.perm_insertionSort PkgLe _).trans
          (hfm.trans (List.perm_insertionSort PkgLe _).symm)
      · exact List.sorted_insertionSort PkgLe _
      · exact List.sorted_insertionSort PkgLe _
      · exact ((List.perm_insertionSort PkgLe _).map pkgKey).nodup_iff.mpr
          hkeys
    rw [hw, hw', hsp, hsort]
    rfl

/-- Witness for C2's amended theorem: a mixed manifest with one source,
one data and one binary entry, permuted among the non-source entries. -/
theorem claim_c2_pkg_ordering_amended_witness :
    (pkgAssemble plainPkgEnv pkgConfDefault
      [⟨"s", "/s", Typ.PYSOURCE⟩, ⟨"d", "/d", Typ.DATA⟩,
       ⟨"b.so", "/b.so", Typ.BINARY⟩]).map PKGRes.table =
    (pkgAssemble plainPkgEnv pkgConfDefault
      [⟨"b.so", "/b.so", Typ.BINARY⟩, ⟨"s", "/s", Typ.PYSOURCE⟩,
       ⟨"d", "/d", Typ.DATA⟩]).map PKGRes.table :=
  claim_c2_pkg_ordering_amended.2.1 plainPkgEnv pkgConfDefault
    [⟨"s", "/s", Typ.PYSOURCE⟩, ⟨"d", "/d", Typ.DATA⟩,
     ⟨"b.so", "/b.so", Typ.BINARY⟩]
    [⟨"b.so", "/b.so", Typ.BINARY⟩, ⟨"s", "/s", Typ.PYSOURCE⟩,
     ⟨"d", "/d", Typ.DATA⟩]
    (by decide)
    (by decide)
    (by intro t ht; cases t <;> simp_all [isSrcTyp, pkgConfDefault, cdictDefault])
    (by decide) (by decide) (by decide) (by decide)
